import Mathlib

set_option maxHeartbeats 2000000
set_option maxRecDepth 8000

/-!
Verification of the ghost-editor versioning core (line/block/version model).

The development shallowly embeds the relational data model used by the
persisted path (`BlockProxy` / Prisma tables: Line, Version, Block, BlockLine)
and, over the same state type, the in-memory `Block` operations from
`src/backend/vcs/core/block.ts`.  Machine numbers of the source (JS numbers
used as ids, timestamps and indices) are embedded as `Nat`/`Int`; fallible
operations return `Option` or carry an explicit error flag.

The line/version classes themselves (line.ts, version.ts, tag.ts,
timestamps.ts) are not part of the sources; wherever an operation of those
classes decides a statement, the definition carries a doc comment starting
with "Modelled from the spec:" and follows the specification text (head_at,
pre-insertion contract, tag application, timestamp provider).
-/

namespace GhostVCS

/-- Version kinds of a line version (Prisma enum `VersionType`; the in-memory
core classifies `LineNodeVersion`s the same way). -/
inductive VersionType where
  | IMPORTED
  | PRE_INSERTION
  | INSERTION
  | CHANGE
  | DELETION
  | CLONE
  deriving DecidableEq

/-- Block kinds (Prisma enum `BlockType`): ROOT owns a whole file, INLINE is a
child region, CLONE is a forked copy. -/
inductive BlockType where
  | ROOT
  | INLINE
  | CLONE
  deriving DecidableEq

/-- One immutable version of one line (Prisma table `Version`). -/
structure Version where
  lineId    : Nat
  timestamp : Nat
  vtype     : VersionType
  isActive  : Bool
  content   : String
  deriving DecidableEq

/-- A block record (Prisma table `Block` plus the in-memory block's
version-merging marker `lastModifiedLine`). -/
structure Blk where
  id                 : Nat
  btype              : BlockType
  parentId           : Option Nat
  originId           : Option Nat
  timestamp          : Nat
  lastModifiedLineId : Option Nat
  deriving DecidableEq

/-- The persisted store: the file's lines in order (table `Line`, whose dense
`order` key we represent by list position), the append-only version log, the
block records, the Block-Line claim relation (table `BlockLine`), and the last
tick handed out by the timestamp provider. -/
structure State where
  fileLines  : List Nat
  versions   : List Version
  blocks     : List Blk
  blockLines : List (Nat × Nat)
  lastTick   : Nat
  deriving DecidableEq

/-- Does block `bid` claim line `lid`? (membership in the BlockLine relation) -/
def claims (s : State) (bid lid : Nat) : Bool :=
  decide ((bid, lid) ∈ s.blockLines)

/-- The lines claimed by a block, in file (`order`) sequence. -/
def claimedLines (s : State) (b : Blk) : List Nat :=
  s.fileLines.filter (fun lid => claims s b.id lid)

/-- All versions of one line, in store (timestamp) sequence. -/
def versionsOnLine (s : State) (lid : Nat) : List Version :=
  s.versions.filter (fun v => v.lineId == lid)

/-- All versions on the lines claimed by a block. -/
def blockVersions (s : State) (b : Blk) : List Version :=
  s.versions.filter (fun v => claims s b.id v.lineId)

/-- The position of a line in the file (its `order` rank). -/
def ordOf (s : State) (lid : Nat) : Nat :=
  s.fileLines.findIdx (fun x => x == lid)

/-- The version with the largest timestamp (`findFirst orderBy timestamp desc`). -/
def maxTsVersion : List Version → Option Version
  | [] => none
  | v :: vs =>
    match maxTsVersion vs with
    | none => some v
    | some w => if v.timestamp ≥ w.timestamp then some v else some w

/-- The version with the smallest timestamp (`findFirst orderBy timestamp asc`). -/
def minTsVersion : List Version → Option Version
  | [] => none
  | v :: vs =>
    match minTsVersion vs with
    | none => some v
    | some w => if v.timestamp ≤ w.timestamp then some v else some w

/-- Insert a version into a timestamp-sorted list (helper of `sortTs`). -/
def insertTs (v : Version) : List Version → List Version
  | [] => [v]
  | w :: ws => if v.timestamp ≤ w.timestamp then v :: w :: ws else w :: insertTs v ws

/-- Sorting by ascending timestamp (the `sort`/`orderBy timestamp asc` of the
source, as insertion sort). -/
def sortTs : List Version → List Version
  | [] => []
  | v :: vs => insertTs v (sortTs vs)

/-- Modelled from the spec: `head_at(t)` of line.ts (§4.2) — the last Version
with timestamp ≤ t; if none exists (line not yet born at t), the earliest
Version on the line.  This is also exactly the per-line rule implemented by
`BlockProxy.getHeads` (max timestamp ≤ block timestamp per line, and the
per-line minimum for the remaining lines). -/
def headAtLine (s : State) (t : Nat) (lid : Nat) : Option Version :=
  match maxTsVersion ((versionsOnLine s lid).filter (fun v => v.timestamp ≤ t)) with
  | some v => some v
  | none   => minTsVersion (versionsOnLine s lid)

/-- Modelled from the spec: the predecessor of a version in its line's history
(`version.previous` of version.ts): the latest strictly earlier version on the
same line. -/
def prevOnLine (s : State) (v : Version) : Option Version :=
  maxTsVersion ((versionsOnLine s v.lineId).filter (fun w => w.timestamp < v.timestamp))

/-- Modelled from the spec: the successor of a version in its line's history
(`version.next` of version.ts): the earliest strictly later version on the
same line. -/
def nextOnLine (s : State) (v : Version) : Option Version :=
  minTsVersion ((versionsOnLine s v.lineId).filter (fun w => w.timestamp > v.timestamp))

/-- Is an optional version a PRE_INSERTION placeholder? -/
def isPreB : Option Version → Bool
  | some v => v.vtype == VersionType.PRE_INSERTION
  | none => false

/-- Modelled from the spec: `line.isInserted` — a line born mid-editing starts
with a hidden PRE_INSERTION placeholder (§4.2 pre-insertion contract), an
imported line with its IMPORTED version. -/
def lineIsInserted (s : State) (lid : Nat) : Bool :=
  isPreB (minTsVersion (versionsOnLine s lid))

/-- The timeline entry before index `i` (`timeline[targetIndex - 1]` guarded
by `targetIndex - 1 >= 0`). -/
def prevEntry (tl : List Version) (i : Nat) : Option Version :=
  if i == 0 then none else tl[i - 1]?

namespace Proxy

/-- `BlockProxy.getHeadFor(line)` (block-proxy.ts:233-260): the last version of
the line with timestamp ≤ block timestamp; if none exists, the code falls back
to the earliest version over ALL lines claimed by the block (the fallback
query has no `lineId` restriction). -/
def getHeadFor (s : State) (b : Blk) (lid : Nat) : Option Version :=
  match maxTsVersion ((versionsOnLine s lid).filter (fun v => v.timestamp ≤ b.timestamp)) with
  | some v => some v
  | none   => minTsVersion (blockVersions s b)

/-- `BlockProxy.getHeads` (block-proxy.ts:94-135): for every claimed line the
version of maximal timestamp ≤ block timestamp, and for lines without such a
version the per-line earliest version; ordered by line order. -/
def getHeads (s : State) (b : Blk) : List Version :=
  (claimedLines s b).filterMap (fun lid => headAtLine s b.timestamp lid)

end Proxy

namespace Core

/-- `Block.getVersions` (block.ts:143): all versions on the block's lines.
The source concatenates the per-line histories; this filter produces the same
versions (in store sequence), and every use below either sorts or counts. -/
def getVersions (s : State) (b : Blk) : List Version :=
  blockVersions s b

/-- `Block.getVersionCount` (block.ts:144). -/
def getVersionCount (s : State) (b : Blk) : Nat :=
  (getVersions s b).length

/-- `Block.getLineCount` (block.ts:121): the number of claimed lines. -/
def getLineCount (s : State) (b : Blk) : Nat :=
  (claimedLines s b).length

/-- `Block.getUserVersionCount` (block.ts:406-407):
`getVersionCount() - getLineCount() + 1`. -/
def getUserVersionCount (s : State) (b : Blk) : Int :=
  (getVersionCount s b : Int) - (getLineCount s b : Int) + 1

/-- `Block.getOriginalLineCount` (block.ts:406): the claimed lines that were
not inserted mid-editing. -/
def getOriginalLineCount (s : State) (b : Blk) : Nat :=
  ((claimedLines s b).filter (fun lid => !(lineIsInserted s lid))).length

/-- `Block.getHeads` (block.ts:404): each claimed line's current version.
Modelled from the spec: the in-memory `line.currentVersion` is the line's
`head_at(block.timestamp)` (§4.2, §4.4 "apply_timestamp simply writes
block.timestamp; all read operations re-derive content from head_at(t)"). -/
def getHeads (s : State) (b : Blk) : List Version :=
  (claimedLines s b).filterMap (fun lid => headAtLine s b.timestamp lid)

/-- Modelled from the spec: `version.isHeadOf(block)` of version.ts — the
version is its line's current head for that block. -/
def isHeadOf (s : State) (b : Blk) (v : Version) : Bool :=
  headAtLine s b.timestamp v.lineId == some v

/-- `Block.getTimeline` (block.ts:409-415): all versions on claimed lines
whose line-predecessor is not a PRE_INSERTION (dropping each INSERTION twin),
sorted ascending by timestamp, with the first `getOriginalLineCount() - 1`
entries spliced away (collapsing the imported era onto its last version). -/
def getTimeline (s : State) (b : Blk) : List Version :=
  (sortTs ((getVersions s b).filter (fun v => !(isPreB (prevOnLine s v))))).drop
    (getOriginalLineCount s b - 1)

/-- `Block.getCurrentVersion` (block.ts:420-423): among the heads that are not
PRE_INSERTION, the one of maximal timestamp. -/
def getCurrentVersion (s : State) (b : Blk) : Option Version :=
  maxTsVersion ((getHeads s b).filter (fun v => !(v.vtype == VersionType.PRE_INSERTION)))

/-- The current version, replaced by its PRE_INSERTION predecessor when it is
the INSERTION twin (block.ts:427-428: "those are set to their related
pre-insertion versions"). -/
def adjustedCurrent (s : State) (cv0 : Version) : Version :=
  match prevOnLine s cv0 with
  | some p => if p.vtype == VersionType.PRE_INSERTION then p else cv0
  | none => cv0

/-- `Block.getCurrentVersionIndex` (block.ts:425-439): the current version,
adjusted to its PRE_INSERTION twin, located in the timeline (`none` models
the thrown "Latest head not in timeline" / missing current version errors). -/
def getCurrentVersionIndex (s : State) (b : Blk) : Option Nat :=
  match getCurrentVersion s b with
  | none => none
  | some cv0 =>
    if (getTimeline s b).findIdx
        (fun v => v.timestamp == (adjustedCurrent s cv0).timestamp) <
        (getTimeline s b).length then
      some ((getTimeline s b).findIdx
        (fun v => v.timestamp == (adjustedCurrent s cv0).timestamp))
    else none

/-- Modelled from the spec: `InsertionState.PreInsertionEngaged` of version.ts
(§4.4 rule 1: the version is a PRE_INSERTION and the corresponding line is
hidden, i.e. the placeholder itself is the line's current head). -/
def preInsertionEngaged (s : State) (b : Blk) (v : Version) : Bool :=
  v.vtype == VersionType.PRE_INSERTION && isHeadOf s b v

/-- Modelled from the spec: `InsertionState.PreInsertionReleased` of
version.ts (§4.4 rule 2: the version is a PRE_INSERTION and the line is
visible, i.e. its INSERTION successor is the line's current head). -/
def preInsertionReleased (s : State) (b : Blk) (v : Version) : Bool :=
  v.vtype == VersionType.PRE_INSERTION &&
    (match nextOnLine s v with
     | some w => isHeadOf s b w
     | none => false)

/-- The branch structure of `Block.applyIndex` (block.ts:477-489): choice of
the version whose timestamp is applied, given the timeline, the current
version index and the target index. -/
def snapChoose (s : State) (b : Blk) (tl : List Version) (curIdx idx : Nat) :
    Option Version :=
  match tl[idx]?, tl[curIdx]? with
  | some sel, some latest =>
    if (match prevEntry tl idx with
        | some p => p == latest && preInsertionEngaged s b p
        | none => false) then
      (prevEntry tl idx).bind (fun p => nextOnLine s p)
    else if (match tl[idx + 1]? with
        | some n => n == latest && preInsertionReleased s b n
        | none => false) then
      tl[idx + 1]?
    else if (sel.vtype == VersionType.PRE_INSERTION &&
        (isHeadOf s b sel ||
          (match tl[idx + 1]? with
           | some n => isHeadOf s b n
           | none => false))) then
      nextOnLine s sel
    else some sel
  | _, _ => none

/-- Result of running an in-memory block operation: whether it threw, and the
block as observable afterwards. -/
structure MemResult where
  failed : Bool
  block  : Blk
  deriving DecidableEq

/-- `Block.applyIndex` (block.ts:447-490): reset the version-merging marker,
build the timeline, reject an out-of-bounds index, otherwise choose a version
by the snap rules and apply its timestamp (`applyTimestamp` sets the block's
timestamp, block.ts:43-45 together with spec §4.4). -/
def applyIndex (s : State) (b : Blk) (i : Int) : MemResult :=
  if i < 0 || ((getTimeline s { b with lastModifiedLineId := none }).length : Int) ≤ i then
    { failed := true, block := { b with lastModifiedLineId := none } }
  else
    match getCurrentVersionIndex s { b with lastModifiedLineId := none } with
    | none => { failed := true, block := { b with lastModifiedLineId := none } }
    | some curIdx =>
      match snapChoose s { b with lastModifiedLineId := none }
          (getTimeline s { b with lastModifiedLineId := none }) curIdx i.toNat with
      | some v =>
        { failed := false,
          block := { b with lastModifiedLineId := none, timestamp := v.timestamp } }
      | none => { failed := true, block := { b with lastModifiedLineId := none } }

/-- `Block.getLineContent` (block.ts:127): the contents of the active lines,
heads derived at the block's timestamp. -/
def getLineContent (s : State) (b : Blk) : List String :=
  (((claimedLines s b).filterMap (fun lid => headAtLine s b.timestamp lid)).filter
      (fun v => v.isActive)).map (fun v => v.content)

/-- `Block.getCurrentText` (block.ts:128), with the file's eol fixed to "\n". -/
def getCurrentText (s : State) (b : Blk) : String :=
  String.intercalate "\n" (getLineContent s b)

/-- Modelled from the spec (§3 "A Tag reopens a Block's state by setting
`block.timestamp = tag.timestamp`"; tag.ts is not under src):
`Tag.applyTo(block)`. -/
def tagApplyTo (tagTs : Nat) (b : Blk) : Blk :=
  { b with timestamp := tagTs }

/-- `Block.loadTag` (block.ts:567-571): apply the tag's captured timestamp to
the block and return the resulting text (tags are identified here by that
timestamp; the text of the block is its visible line contents). -/
def loadTag (s : State) (b : Blk) (tagTs : Nat) : List String × Blk :=
  (getLineContent s (tagApplyTo tagTs b), tagApplyTo tagTs b)

/-- `Block.getTextForVersion` (block.ts:573-580): capture a recovery tag via
`createCurrentTag`, i.e. at `TimestampProvider.getLastTimestamp()`
(spec-modelled: the provider's last tick is the store's `lastTick`;
timestamps.ts is not under src), load the requested tag, then re-apply the
recovery tag.  Returns the text read and the block as left behind. -/
def getTextForVersion (s : State) (b : Blk) (tagTs : Nat) : List String × Blk :=
  ((loadTag s b tagTs).1, tagApplyTo s.lastTick (loadTag s b tagTs).2)

end Core

namespace Proxy

/-- `BlockProxy.getLastImportedVersion` (block-proxy.ts:266-279): the latest
IMPORTED version on the block's lines. -/
def getLastImportedVersion (s : State) (b : Blk) : Option Version :=
  maxTsVersion ((blockVersions s b).filter (fun v => v.vtype == VersionType.IMPORTED))

/-- `BlockProxy.getTimeline` (block-proxy.ts:323-339): versions on the block's
lines of type other than CLONE, restricted to timestamps at or after the last
imported version when one exists, ascending by timestamp. -/
def getTimeline (s : State) (b : Blk) : List Version :=
  let li? := getLastImportedVersion s b
  sortTs ((blockVersions s b).filter (fun v =>
    !(v.vtype == VersionType.CLONE) &&
      (match li? with
       | some li => li.timestamp ≤ v.timestamp
       | none => true)))

/-- `BlockProxy.applyIndex` (block-proxy.ts:700-710): reject an out-of-bounds
index (before any write), otherwise apply the timestamp of the selected
timeline entry directly — this path has no snap rules.  `none` models the
throw, which leaves the store untouched. -/
def applyIndex (s : State) (b : Blk) (i : Int) : Option Blk :=
  if i < 0 || ((getTimeline s b).length : Int) ≤ i then none
  else
    match (getTimeline s b)[i.toNat]? with
    | some sel => some { b with timestamp := sel.timestamp }
    | none => none

/-- `BlockProxy.getVersionCount` (block-proxy.ts:78): versions on the block's
lines whose type is not CLONE. -/
def getVersionCount (s : State) (b : Blk) : Nat :=
  ((blockVersions s b).filter (fun v => !(v.vtype == VersionType.CLONE))).length

/-- `BlockProxy.getOriginalLineCount` (block-proxy.ts:85-92): the number of
IMPORTED versions on the block's lines. -/
def getOriginalLineCount (s : State) (b : Blk) : Nat :=
  ((blockVersions s b).filter (fun v => v.vtype == VersionType.IMPORTED)).length

/-- The user-visible version count computed by `BlockProxy.asBlockInfo`
(block-proxy.ts:634): `versionCount - originalLineCount + (lastImportedVersion
? 1 : 0)`. -/
def userVersionCount (s : State) (b : Blk) : Int :=
  (getVersionCount s b : Int) - (getOriginalLineCount s b : Int) +
    (if (getLastImportedVersion s b).isSome then 1 else 0)

end Proxy

/-- Outcome of `BlockProxy.createChild`: the range failed to resolve (a
thrown error before any write), an overlap was detected (`null`, nothing
written), or the store extended with the created child. -/
inductive ChildResult where
  | invalidRange : ChildResult
  | overlap : ChildResult
  | created : State → ChildResult
  deriving DecidableEq

namespace Proxy

/-- `BlockProxy.getLinesInRange` (block-proxy.ts:407-418): resolve the
range's endpoints to the `startLine`-th and `endLine`-th ACTIVE heads
(`getHeadsWithLines` is `getHeads` with the line relation included), then
return every claimed line — active or not — whose `order` lies in the closed
span between the two endpoint lines.  `none` models the crash on an
unresolvable endpoint. -/
def getLinesInRange (s : State) (b : Blk) (startLine endLine : Nat) :
    Option (List Nat) :=
  match ((getHeads s b).filter (fun v => v.isActive))[startLine - 1]?,
      ((getHeads s b).filter (fun v => v.isActive))[endLine - 1]? with
  | some firstV, some lastV =>
    some (((getHeads s b).filter (fun v =>
      decide (ordOf s firstV.lineId ≤ ordOf s v.lineId) &&
        decide (ordOf s v.lineId ≤ ordOf s lastV.lineId))).map (fun v => v.lineId))
  | _, _ => none

/-- The block record created by `BlockProxy.inlineCopy` (block-proxy.ts:
478-494): type INLINE, parent `b`, timestamp copied from the parent. -/
def childBlk (b : Blk) (newId : Nat) : Blk :=
  { id := newId, btype := BlockType.INLINE, parentId := some b.id,
    originId := none, timestamp := b.timestamp, lastModifiedLineId := none }

/-- `BlockProxy.inlineCopy` (block-proxy.ts:478-494): append the new INLINE
block and connect exactly the given lines to it. -/
def inlineCopy (s : State) (b : Blk) (newId : Nat) (lineIds : List Nat) :
    State :=
  { s with blocks := s.blocks ++ [childBlk b newId],
           blockLines := s.blockLines ++ lineIds.map (fun lid => (newId, lid)) }

/-- `BlockProxy.createChild` (block-proxy.ts:592-608): resolve the range,
reject (returning `null`, writing nothing) when any block with this block as
parent claims one of the resolved lines, otherwise `inlineCopy` the resolved
lines. -/
def createChild (s : State) (b : Blk) (newId startLine endLine : Nat) :
    ChildResult :=
  match getLinesInRange s b startLine endLine with
  | none => ChildResult.invalidRange
  | some lineIds =>
    if s.blocks.any (fun c => c.parentId == some b.id &&
        lineIds.any (fun lid => claims s c.id lid)) then
      ChildResult.overlap
    else ChildResult.created (inlineCopy s b newId lineIds)

/-- The per-line head-activity test behind `getActiveLineCount` and
`getActiveLines` (block-proxy.ts:172-230): the line's version of maximal
timestamp ≤ the block's timestamp exists and is active (these two queries
use no pre-insertion fallback). -/
def activeHeadB (s : State) (b : Blk) (lid : Nat) : Bool :=
  match maxTsVersion ((versionsOnLine s lid).filter
      (fun v => v.timestamp ≤ b.timestamp)) with
  | some v => v.isActive
  | none => false

/-- `BlockProxy.getActiveLines` (block-proxy.ts:199-230): the claimed lines
whose head is active, in file order. -/
def getActiveLines (s : State) (b : Blk) : List Nat :=
  (claimedLines s b).filter (fun lid => activeHeadB s b lid)

/-- `BlockProxy.getActiveLineCount` (block-proxy.ts:172-197): the number of
claimed lines whose head is active. -/
def getActiveLineCount (s : State) (b : Blk) : Nat :=
  (getActiveLines s b).length

/-- The clamp of `BlockProxy.insertLinesAt` (block-proxy.ts:543-545):
`Math.min(Math.max(lineNumber, 1), activeLineCount + 1)`. -/
def clampLineNumber (n : Int) (activeCount : Nat) : Nat :=
  (min (max n 1) ((activeCount : Int) + 1)).toNat

/-- Modelled from the spec (§4.5 insertion primitive; file-proxy.ts and
line-proxy.ts are not under src): allocate a fresh line at file position
`pos` carrying a hidden PRE_INSERTION version at tick+1 and an active
INSERTION version at tick+2; every block claiming the reference line claims
the new line; the editing block's timestamp advances to the INSERTION stamp,
so the line is visible there and hidden in siblings until they scrub
forward. -/
def insertOneLine (s : State) (b : Blk) (newLid pos : Nat) (content : String)
    (refLid : Nat) : State :=
  { fileLines := s.fileLines.take pos ++ [newLid] ++ s.fileLines.drop pos,
    versions := s.versions ++
      [ { lineId := newLid, timestamp := s.lastTick + 1,
          vtype := VersionType.PRE_INSERTION, isActive := false, content := "" },
        { lineId := newLid, timestamp := s.lastTick + 2,
          vtype := VersionType.INSERTION, isActive := true, content := content } ],
    blocks := s.blocks.map (fun c =>
      if c.id == b.id then { c with timestamp := s.lastTick + 2 } else c),
    blockLines := s.blockLines ++
      (s.blocks.filter (fun c => claims s c.id refLid)).map
        (fun c => (c.id, newLid)),
    lastTick := s.lastTick + 2 }

/-- `BlockProxy.insertLinesAt` for one line, i.e. `insertLineAt`
(block-proxy.ts:540-577): clamp the line number into [1, activeCount+1],
then prepend before the first claimed line, append after the last claimed
line, or insert between the (k-1)-th and k-th active lines.  `none` models
the throws of the underlying queries (`findFirstOrThrow` on an empty block,
an unresolvable active line). -/
def insertLinesAt (s : State) (b : Blk) (newLid : Nat) (n : Int)
    (content : String) : Option State :=
  if clampLineNumber n (getActiveLineCount s b) == 1 then
    match (claimedLines s b).head? with
    | some firstL => some (insertOneLine s b newLid (ordOf s firstL) content firstL)
    | none => none
  else if clampLineNumber n (getActiveLineCount s b) ==
      getActiveLineCount s b + 1 then
    match (claimedLines s b).getLast? with
    | some lastL =>
      some (insertOneLine s b newLid (ordOf s lastL + 1) content lastL)
    | none => none
  else
    match (getActiveLines s b)[clampLineNumber n (getActiveLineCount s b) - 2]?,
        (getActiveLines s b)[clampLineNumber n (getActiveLineCount s b) - 1]? with
    | some prevL, some curL =>
      some (insertOneLine s b newLid (ordOf s curL) content prevL)
    | _, _ => none

end Proxy

namespace Core

/-- `Block.getLastActiveLine` (block.ts:118): the last claimed line whose
current head (`head_at(block.timestamp)`, spec §4.2) is active — `none`
models the `null` returned when the block has no active line.
`Block.insertLine` (block.ts:237-242) starts with `getLastLineNumber()`,
which is `getLastActiveLine().getLineNumber()` (block.ts:94) and crashes on
that `null`. -/
def getLastActiveLine (s : State) (b : Blk) : Option Nat :=
  ((claimedLines s b).filter (fun lid =>
    (headAtLine s b.timestamp lid).any (fun v => v.isActive))).getLast?

end Core

/-! ### The edit engine `changeLines` (claim C9).  The file's eol is fixed to
"\n" throughout, as in the other text-producing embeddings. -/

/-- Length of the leading whitespace of a string (the
`content.length - content.trimStart().length` computation of
block-proxy.ts:760). -/
def leadingWs (s : String) : Nat :=
  (s.data.takeWhile (fun c => c.isWhitespace)).length

/-- Is the string all-whitespace (`content.trim().length === 0`)? -/
def isBlank (s : String) : Bool :=
  s.data.all (fun c => c.isWhitespace)

/-- `insertedText.startsWith(eol)`. -/
def startsWithNl (s : String) : Bool :=
  s.data.head? == some '\n'

/-- `insertedText.endsWith(eol)`. -/
def endsWithNl (s : String) : Bool :=
  s.data.getLast? == some '\n'

/-- `text.split(eol)` over the character list (JS split semantics:
`"".split` is `[""]`, a trailing eol yields a trailing empty segment). -/
def splitNlChars : List Char → List (List Char)
  | [] => [[]]
  | c :: cs =>
    if c = '\n' then [] :: splitNlChars cs
    else
      match splitNlChars cs with
      | [] => [[c]]
      | seg :: rest => (c :: seg) :: rest

/-- `text.split(eol)`. -/
def splitNl (s : String) : List String :=
  (splitNlChars s.data).map (fun cs => String.mk cs)

/-- The editor's multi-line change event (MultiLineChange of the change
model): the modified range, the replacement text and the combined pre-edit
text of the affected lines. -/
structure MultiLineChange where
  startLine    : Nat
  startCol     : Nat
  endLine      : Nat
  endCol       : Nat
  insertedText : String
  lineText     : String
  deriving DecidableEq

/-- The classification result of `BlockProxy.changeLines`
(block-proxy.ts:756-812): the active lines of the adjusted modified range,
the adjusted replacement lines, and the adjusted start line. -/
structure ChPlan where
  vcsLines : List Nat
  modLines : List String
  startL   : Nat
  deriving DecidableEq

namespace Proxy

/-- `activeHeads[change.modifiedRange.startLineNumber - 1]`
(block-proxy.ts:766): the head of the range's first active line; `none`
models the crash on an out-of-range start line. -/
def chStartHead (s : State) (b : Blk) (ch : MultiLineChange) : Option Version :=
  ((getHeads s b).filter (fun v => v.isActive))[ch.startLine - 1]?

/-- The change classification of `BlockProxy.changeLines`
(block-proxy.ts:760-812): eol flags on the inserted text (including the
blank-last-segment clause of `endsWithEol`), the push-up/push-down cases
that leave the start line untouched, the resulting adjustment of
`modifiedLines` and the range, and the active lines of the adjusted range
(empty for a pure push insert, `noModifications`). -/
def chPlan (s : State) (b : Blk) (ch : MultiLineChange) (sh : Version) : ChPlan :=
  let slc := sh.content
  let insertedBeforeCode := decide (leadingWs slc + 1 ≥ ch.startCol)
  let swEol := startsWithNl ch.insertedText
  let ewEol := endsWithNl ch.insertedText ||
    (match (splitNl ch.insertedText).getLast? with
     | some seg => isBlank seg
     | none => false)
  let insAtEnd := decide (ch.startCol > slc.length)
  let oneLineInsertOnly := (ch.startLine == ch.endLine) && (ch.startCol == ch.endCol)
  let pushDown := insertedBeforeCode && ewEol
  let pushUp := insAtEnd && swEol
  let noModifications := oneLineInsertOnly && (pushUp || pushDown)
  let modLines0 := splitNl ch.lineText
  let modLines := if pushUp then modLines0.drop 1
    else if pushDown then modLines0.dropLast else modLines0
  let startL := if pushUp then ch.startLine + 1 else ch.startLine
  let endL := if pushDown then ch.endLine - 1 else ch.endLine
  let vcs := if noModifications then []
    else (((getHeads s b).filter (fun v => v.isActive)).enum.filter
      (fun p => decide (startL ≤ p.1 + 1) && decide (p.1 + 1 ≤ endL))).map
      (fun p => p.2.lineId)
  { vcsLines := vcs, modLines := modLines, startL := startL }

/-- The lines deleted by `changeLines` (block-proxy.ts:864-867: indices of
`vcsLines` beyond `modifiedLines.length`, walked from the top down). -/
def chDeleted (p : ChPlan) : List Nat :=
  (p.vcsLines.drop p.modLines.length).reverse

/-- The lines updated by `changeLines` (block-proxy.ts:871-874: indices
below `min(vcsLines.length, modifiedLines.length)`). -/
def chUpdated (p : ChPlan) : List Nat :=
  p.vcsLines.take p.modLines.length

/-- The replacement lines beyond the existing active lines, inserted fresh
(block-proxy.ts:880-881). -/
def chToInsert (p : ChPlan) : List String :=
  p.modLines.drop p.vcsLines.length

/-- The insertion position `modifiedRange.startLine + vcsLines.length`
(block-proxy.ts:881). -/
def chInsertPos (p : ChPlan) : Nat :=
  p.startL + p.vcsLines.length

/-- The DELETION versions written by `deleteLine` (block-proxy.ts:835-849),
with successive provider ticks. -/
def stampDeletions (lids : List Nat) (t0 : Nat) : List Version :=
  lids.enum.map (fun p =>
    { lineId := p.2, timestamp := t0 + 1 + p.1,
      vtype := VersionType.DELETION, isActive := false, content := "" })

/-- The CHANGE versions written by `updateLine` (block-proxy.ts:851-863),
with successive provider ticks after the deletions. -/
def stampChanges (prs : List (Nat × String)) (t0 : Nat) : List Version :=
  prs.enum.map (fun p =>
    { lineId := p.2.1, timestamp := t0 + 1 + p.1,
      vtype := VersionType.CHANGE, isActive := true, content := p.2.2 })

/-- The version-writing transaction of `changeLines` (block-proxy.ts:
864-878): append the DELETION and CHANGE versions and set the block's
timestamp to the latest stamp written (unchanged when nothing was
written). -/
def chWriteVersions (s : State) (b : Blk) (p : ChPlan) : State :=
  { s with
    versions := s.versions ++ stampDeletions (chDeleted p) s.lastTick ++
      stampChanges ((chUpdated p).zip p.modLines)
        (s.lastTick + (chDeleted p).length),
    blocks := s.blocks.map (fun c =>
      if c.id == b.id then
        { c with timestamp :=
            if (chDeleted p).length + (chUpdated p).length == 0 then c.timestamp
            else s.lastTick + (chDeleted p).length + (chUpdated p).length }
      else c),
    lastTick := s.lastTick + (chDeleted p).length + (chUpdated p).length }

/-- The insertion tail of `changeLines` (block-proxy.ts:880-881): insert the
surplus replacement lines one after another starting at the insertion
position, drawing the given fresh line ids. -/
def insertTail (s : State) (b : Blk) (pos : Nat) (ids : List Nat) :
    List String → Option State
  | [] => some s
  | c :: cs =>
    match ids with
    | id :: ids' =>
      match insertLinesAt s b id (pos : Int) c with
      | some s' => insertTail s' b (pos + 1) ids' cs
      | none => none
    | [] => none

/-- The affected-blocks report of `changeLines` (block-proxy.ts:883-889):
the ids of the blocks claiming any of the given (deleted or updated)
lines. -/
def affectedBlockIds (s : State) (lids : List Nat) : List Nat :=
  (s.blocks.filter (fun c => lids.any (fun lid => claims s c.id lid))).map
    (fun c => c.id)

/-- `BlockProxy.changeLines` (block-proxy.ts:756-890): classify the change,
write the DELETION/CHANGE versions, insert the surplus lines, and report the
blocks claiming a deleted or updated line — the freshly inserted lines are
NOT part of `affectedLines` on this path. -/
def changeLines (s : State) (b : Blk) (newLids : List Nat)
    (ch : MultiLineChange) : Option (State × List Nat) :=
  match chStartHead s b ch with
  | none => none
  | some sh =>
    match insertTail (chWriteVersions s b (chPlan s b ch sh)) b
        (chInsertPos (chPlan s b ch sh)) newLids
        (chToInsert (chPlan s b ch sh)) with
    | none => none
    | some s₂ =>
      some (s₂, affectedBlockIds s₂
        (chDeleted (chPlan s b ch sh) ++ chUpdated (chPlan s b ch sh)))

end Proxy

/-- Claim-side description of the timeline (spec §4.6 and claim C3): the
versions on claimed lines whose kind is neither IMPORTED nor CLONE, ascending
by timestamp, with the last IMPORTED version kept as the single "original"
anchor at the front. -/
def c3SpecTimeline (s : State) (b : Blk) : List Version :=
  let base := sortTs ((blockVersions s b).filter (fun v =>
    !(v.vtype == VersionType.IMPORTED) && !(v.vtype == VersionType.CLONE)))
  match Proxy.getLastImportedVersion s b with
  | some li => li :: base
  | none => base

/-- Claim-side: the number of claimed lines carrying an IMPORTED version. -/
def importedLineCount (s : State) (b : Blk) : Nat :=
  ((claimedLines s b).filter (fun lid =>
    (versionsOnLine s lid).any (fun v => v.vtype == VersionType.IMPORTED))).length

/-- Claim-side: is any claimed line imported? -/
def anyImportedLine (s : State) (b : Blk) : Bool :=
  (claimedLines s b).any (fun lid =>
    (versionsOnLine s lid).any (fun v => v.vtype == VersionType.IMPORTED))

/-- Claim-side user version count formula of claim C4: total number of
versions on the claimed lines, minus the number of imported lines, plus 1 if
any claimed line is imported. -/
def c4SpecCount (s : State) (b : Blk) : Int :=
  ((blockVersions s b).length : Int) - (importedLineCount s b : Int) +
    (if anyImportedLine s b then 1 else 0)

/-- Claim-side (spec §4.4 rule 1): a PRE_INSERTION step is engaged when the
placeholder itself is its line's current head — the line is hidden. -/
def engagedProp (s : State) (b : Blk) (v : Version) : Prop :=
  v.vtype = VersionType.PRE_INSERTION ∧ Core.isHeadOf s b v = true

/-- Claim-side (spec §4.4 rule 2): a PRE_INSERTION step is released when its
INSERTION successor is its line's current head — the line is visible. -/
def releasedProp (s : State) (b : Blk) (v : Version) : Prop :=
  v.vtype = VersionType.PRE_INSERTION ∧
    ∃ w, nextOnLine s v = some w ∧ Core.isHeadOf s b w = true

/-- The outcome of `apply_index` once the snap rules chose a version: apply
that version's timestamp (claim C1: "performs apply_timestamp(v.timestamp)");
a missing successor would crash the source, modelled as a failure. -/
def applyOutcome (b : Blk) : Option Version → Core.MemResult
  | some v =>
    { failed := false,
      block := { b with lastModifiedLineId := none, timestamp := v.timestamp } }
  | none => { failed := true, block := { b with lastModifiedLineId := none } }

/-- Claim-side, computable form of the four snap rules of claim C1 / spec
§4.4, over a given timeline and current-version index: (1) previous entry is
the latest version and a PRE_INSERTION currently engaged — reveal, take its
successor; (2) next entry is the latest version and a PRE_INSERTION currently
released — hide, take that next entry; (3) the selected entry is
PRE_INSERTION and it or the next entry is the current head — skip to its
successor; (4) otherwise the selected entry itself. -/
def specSnapTarget (s : State) (b : Blk) (tl : List Version) (curIdx i : Nat) :
    Option Version :=
  match tl[i]?, tl[curIdx]? with
  | some sel, some latest =>
    if (prevEntry tl i == some latest) &&
        (latest.vtype == VersionType.PRE_INSERTION) && Core.isHeadOf s b latest then
      nextOnLine s latest
    else if (tl[i + 1]? == some latest) &&
        (latest.vtype == VersionType.PRE_INSERTION) &&
        ((nextOnLine s latest).any (fun w => Core.isHeadOf s b w)) then
      some latest
    else if (sel.vtype == VersionType.PRE_INSERTION) &&
        (Core.isHeadOf s b sel || (tl[i + 1]?.any (fun n => Core.isHeadOf s b n))) then
      nextOnLine s sel
    else some sel
  | _, _ => none

/-- Claim-side (spec §4.4/§4.6): the current version is the head of maximal
timestamp that is not PRE_INSERTION; its position in the given timeline, with
the index pointing at the PRE_INSERTION entry when the current head is the
INSERTION after a PRE_INSERTION. -/
def specCurrentIndexIn (s : State) (b : Blk) (tl : List Version) : Option Nat :=
  match Core.getCurrentVersion s b with
  | none => none
  | some cv0 =>
    let cv := match prevOnLine s cv0 with
      | some p => if p.vtype == VersionType.PRE_INSERTION then p else cv0
      | none => cv0
    let i := tl.findIdx (fun v => v.timestamp == cv.timestamp)
    if i < tl.length then some i else none

/-- Claim-side: the timestamp apply_index(i) must apply according to claim C1
(the four snap rules, then apply_timestamp(v.timestamp)). -/
def specApplyIndexTs (s : State) (b : Blk) (tl : List Version) (i : Nat) : Option Nat :=
  match specCurrentIndexIn s b tl with
  | none => none
  | some curIdx => (specSnapTarget s b tl curIdx i).map (fun v => v.timestamp)

/-! ### Well-formedness of stores and blocks -/

/-- Modelled from the spec (§3 data-model invariants and §4.2 pre-insertion
contract): a live line has at least one version; its first version is either
IMPORTED or a hidden PRE_INSERTION placeholder; IMPORTED and PRE_INSERTION
versions occur only in first position; PRE_INSERTION versions are inactive. -/
def wfLine (s : State) (lid : Nat) : Prop :=
  versionsOnLine s lid ≠ [] ∧
  (∀ v ∈ (versionsOnLine s lid).take 1,
      v.vtype = VersionType.IMPORTED ∨ v.vtype = VersionType.PRE_INSERTION) ∧
  (∀ v ∈ versionsOnLine s lid,
      v.vtype = VersionType.IMPORTED ∨ v.vtype = VersionType.PRE_INSERTION →
        (versionsOnLine s lid).head? = some v) ∧
  (∀ v ∈ versionsOnLine s lid, v.vtype = VersionType.PRE_INSERTION → v.isActive = false)

/-- Store invariants (spec §3 and §4.1): the version log is append-only with
strictly increasing provider ticks; line ids are unique; every line is
well-formed; the claim relation and the version log reference existing lines;
no version is newer than the provider's last tick. -/
def WfS (s : State) : Prop :=
  s.versions.Pairwise (fun a b => a.timestamp < b.timestamp) ∧
  s.fileLines.Nodup ∧
  (∀ lid ∈ s.fileLines, wfLine s lid) ∧
  (∀ pr ∈ s.blockLines, pr.2 ∈ s.fileLines) ∧
  (∀ v ∈ s.versions, v.lineId ∈ s.fileLines) ∧
  (∀ v ∈ s.versions, v.timestamp ≤ s.lastTick)

/-- Block invariants (spec §3 Block invariants): a block claims at least one
line; imports precede every other version on its lines (files are imported
before any edit); the block's timestamp is at or after its imported era. -/
def WfB (s : State) (b : Blk) : Prop :=
  claimedLines s b ≠ [] ∧
  (∀ v ∈ blockVersions s b, ∀ w ∈ blockVersions s b,
      v.vtype = VersionType.IMPORTED → w.vtype ≠ VersionType.IMPORTED →
        v.timestamp < w.timestamp) ∧
  (∀ v ∈ blockVersions s b, v.vtype = VersionType.IMPORTED → v.timestamp ≤ b.timestamp)

instance (s : State) (lid : Nat) : Decidable (wfLine s lid) := by
  unfold wfLine
  infer_instance

instance (s : State) : Decidable (WfS s) := by
  unfold WfS
  infer_instance

instance (s : State) (b : Blk) : Decidable (WfB s b) := by
  unfold WfB
  infer_instance

/-! ### Concrete store used by several counterexamples: a file imported with
one line "x" (timestamp 1), then a line "new" inserted below it by the root
block (PRE_INSERTION at timestamp 2, INSERTION at timestamp 3). -/

/-- The IMPORTED version of line 1. -/
def impX : Version :=
  { lineId := 1, timestamp := 1, vtype := VersionType.IMPORTED, isActive := true, content := "x" }

/-- The hidden PRE_INSERTION placeholder of the inserted line 2. -/
def preNew : Version :=
  { lineId := 2, timestamp := 2, vtype := VersionType.PRE_INSERTION, isActive := false, content := "" }

/-- The visible INSERTION version of the inserted line 2. -/
def insNew : Version :=
  { lineId := 2, timestamp := 3, vtype := VersionType.INSERTION, isActive := true, content := "new" }

/-- Root block of the insertion scenario, at the latest timestamp. -/
def rootIns : Blk :=
  { id := 1, btype := BlockType.ROOT, parentId := none, originId := none,
    timestamp := 3, lastModifiedLineId := none }

/-- The insertion-scenario store. -/
def sIns : State :=
  { fileLines := [1, 2], versions := [impX, preNew, insNew], blocks := [rootIns],
    blockLines := [(1, 1), (1, 2)], lastTick := 3 }

/-- The same root block scrubbed back to the original import (timestamp 1),
e.g. after `apply_index(0)`. -/
def rootInsAt1 : Blk := { rootIns with timestamp := 1 }

/-- The root block with a pending version-merging marker (a line was just
updated with merging enabled). -/
def rootInsMarked : Blk := { rootIns with lastModifiedLineId := some 1 }

/-- A CHANGE version: line 1 updated from "x" to "y" at timestamp 2. -/
def chgY : Version :=
  { lineId := 1, timestamp := 2, vtype := VersionType.CHANGE, isActive := true, content := "y" }

/-- Root block of the one-line-edit scenario, at the latest timestamp. -/
def rootChg : Blk :=
  { id := 1, btype := BlockType.ROOT, parentId := none, originId := none,
    timestamp := 2, lastModifiedLineId := none }

/-- A store with one imported line "x" later updated to "y". -/
def sChg : State :=
  { fileLines := [1], versions := [impX, chgY], blocks := [rootChg],
    blockLines := [(1, 1)], lastTick := 2 }

/-- The one-line store as it was before the edit: only the import exists (the
creation-time store of a tag captured at timestamp 1). -/
def sTagCreate : State :=
  { fileLines := [1], versions := [impX], blocks := [rootInsAt1],
    blockLines := [(1, 1)], lastTick := 1 }

/-- Imported version of line 1 of the three-line file "a","b","c". -/
def imp1 : Version :=
  { lineId := 1, timestamp := 1, vtype := VersionType.IMPORTED, isActive := true, content := "a" }

/-- Imported version of line 2 of the three-line file. -/
def imp2 : Version :=
  { lineId := 2, timestamp := 2, vtype := VersionType.IMPORTED, isActive := true, content := "b" }

/-- Imported version of line 3 of the three-line file. -/
def imp3 : Version :=
  { lineId := 3, timestamp := 3, vtype := VersionType.IMPORTED, isActive := true, content := "c" }

/-- Root block of the three-line file, claiming lines 1-3. -/
def rootP : Blk :=
  { id := 1, btype := BlockType.ROOT, parentId := none, originId := none,
    timestamp := 3, lastModifiedLineId := none }

/-- An INLINE child of the root, claiming lines 2-3. -/
def childQ : Blk :=
  { id := 2, btype := BlockType.INLINE, parentId := some 1, originId := none,
    timestamp := 3, lastModifiedLineId := none }

/-- Three imported lines; the root claims all of them and a child claims
lines 2-3 (spec scenario 5). -/
def sKid : State :=
  { fileLines := [1, 2, 3], versions := [imp1, imp2, imp3],
    blocks := [rootP, childQ],
    blockLines := [(1, 1), (1, 2), (1, 3), (2, 2), (2, 3)], lastTick := 3 }

/-- A DELETION version: line 1 deleted at timestamp 2. -/
def delX : Version :=
  { lineId := 1, timestamp := 2, vtype := VersionType.DELETION, isActive := false, content := "" }

/-- Root block of the everything-deleted scenario. -/
def rootDel : Blk :=
  { id := 1, btype := BlockType.ROOT, parentId := none, originId := none,
    timestamp := 2, lastModifiedLineId := none }

/-- A store whose single line "x" has been deleted: the block still claims
the line but has no active line left. -/
def sDel : State :=
  { fileLines := [1], versions := [impX, delX], blocks := [rootDel],
    blockLines := [(1, 1)], lastTick := 2 }

/-- A pure line insertion at the end of "x": the cursor sits after the "x"
(column 2), the replacement is "\nnew" and the combined pre-edit+post-edit
line text is "x\nnew" — the push-start-line-up case of the edit engine. -/
def chIns : MultiLineChange :=
  { startLine := 1, startCol := 2, endLine := 1, endCol := 2,
    insertedText := "\nnew", lineText := "x\nnew" }

/-- An update of line 1 from "x" to "z": range (1,1)-(1,2) replaced by
"z". -/
def chUpd : MultiLineChange :=
  { startLine := 1, startCol := 1, endLine := 1, endCol := 2,
    insertedText := "z", lineText := "z" }

/-- The CHANGE version written by applying `chUpd` to the one-line store. -/
def chgZ : Version :=
  { lineId := 1, timestamp := 2, vtype := VersionType.CHANGE, isActive := true, content := "z" }

/-- The store after applying `chUpd` to `sTagCreate`. -/
def sUpd2 : State :=
  { fileLines := [1], versions := [impX, chgZ], blocks := [rootChg],
    blockLines := [(1, 1)], lastTick := 2 }

/-- Claim C2 (code bug): for the block at timestamp 1 the inserted line 2 has
no version with timestamp ≤ 1, so the claim requires its head to be the
earliest version on line 2 itself — the hidden PRE_INSERTION placeholder
(which is what the spec rule `headAtLine` and the code's own
`BlockProxy.getHeads` return).  `BlockProxy.getHeadFor`, however, returns the
earliest version over all the block's lines: line 1's IMPORTED version — a
version of a different line, active rather than hidden. -/
theorem c2_getHeadFor_wrong_line_fallback :
    Proxy.getHeadFor sIns rootInsAt1 2 = some impX ∧
    impX.lineId = 1 ∧ impX.isActive = true ∧
    headAtLine sIns 1 2 = some preNew ∧
    preNew.vtype = VersionType.PRE_INSERTION ∧ preNew.isActive = false ∧
    Proxy.getHeads sIns rootInsAt1 = [impX, preNew] := by
  decide

/-- Claim C3 (counterexample): in the insertion scenario the claim's timeline
— non-IMPORTED, non-CLONE versions with the last IMPORTED version as anchor —
contains the INSERTION version, but the in-memory `Block.getTimeline`
(block.ts:409-415) drops every INSERTION twin of a PRE_INSERTION, and the
`DBBlock` variant (block.ts:908-916) likewise excludes INSERTION versions.
So the claim, read over the cited implementations, is false at this input. -/
theorem c3_counterexample :
    Core.getTimeline sIns rootIns = [impX, preNew] ∧
    c3SpecTimeline sIns rootIns = [impX, preNew, insNew] ∧
    Core.getTimeline sIns rootIns ≠ c3SpecTimeline sIns rootIns := by
  decide

/-- Claim C4 (counterexample): in the insertion scenario the block has 3
versions on 2 claimed lines, 1 of which is imported.  The claim's formula
gives 3 - 1 + 1 = 3, but the cited `Block.getUserVersionCount`
(block.ts:406-407) computes versions - lines + 1 = 2. -/
theorem c4_counterexample :
    Core.getUserVersionCount sIns rootIns = 2 ∧
    c4SpecCount sIns rootIns = 3 ∧
    Core.getUserVersionCount sIns rootIns ≠ c4SpecCount sIns rootIns := by
  decide

/-! ### List lemmas about the sorting and aggregation helpers -/

theorem insertTs_eq_cons {v : Version} {l : List Version}
    (h : ∀ w ∈ l, v.timestamp ≤ w.timestamp) : insertTs v l = v :: l := by
  cases l with
  | nil => rfl
  | cons w ws =>
    unfold insertTs
    rw [if_pos (h w (List.mem_cons_self w ws))]

theorem sortTs_eq_of_sorted {l : List Version}
    (h : l.Pairwise (fun a b => a.timestamp ≤ b.timestamp)) : sortTs l = l := by
  induction l with
  | nil => rfl
  | cons v vs ih =>
    have h' := List.pairwise_cons.mp h
    rw [sortTs, ih h'.2, insertTs_eq_cons h'.1]

theorem maxTsVersion_cons_none {a : Version} {as : List Version}
    (hm : maxTsVersion as = none) : maxTsVersion (a :: as) = some a := by
  rw [maxTsVersion, hm]

theorem maxTsVersion_cons_some {a m : Version} {as : List Version}
    (hm : maxTsVersion as = some m) :
    maxTsVersion (a :: as) = if a.timestamp ≥ m.timestamp then some a else some m := by
  rw [maxTsVersion, hm]

theorem minTsVersion_cons_none {a : Version} {as : List Version}
    (hm : minTsVersion as = none) : minTsVersion (a :: as) = some a := by
  rw [minTsVersion, hm]

theorem minTsVersion_cons_some {a m : Version} {as : List Version}
    (hm : minTsVersion as = some m) :
    minTsVersion (a :: as) = if a.timestamp ≤ m.timestamp then some a else some m := by
  rw [minTsVersion, hm]

theorem maxTsVersion_eq_none {l : List Version} : maxTsVersion l = none ↔ l = [] := by
  cases l with
  | nil => simp [maxTsVersion]
  | cons a as =>
    simp only [maxTsVersion]
    cases maxTsVersion as with
    | none => simp
    | some w =>
      by_cases hc : a.timestamp ≥ w.timestamp <;> simp [hc]

theorem maxTsVersion_spec {l : List Version} {v : Version}
    (h : maxTsVersion l = some v) :
    v ∈ l ∧ ∀ w ∈ l, w.timestamp ≤ v.timestamp := by
  induction l generalizing v with
  | nil => simp [maxTsVersion] at h
  | cons a as ih =>
    cases hm : maxTsVersion as with
    | none =>
      rw [maxTsVersion_cons_none hm] at h
      have has : as = [] := maxTsVersion_eq_none.mp hm
      subst has
      simp at h
      subst h
      exact ⟨List.mem_cons_self _ _, by intro w hw; simp at hw; subst hw; exact Nat.le_refl _⟩
    | some m =>
      rw [maxTsVersion_cons_some hm] at h
      have hspec := ih hm
      by_cases hc : a.timestamp ≥ m.timestamp
      · rw [if_pos hc] at h
        cases h
        refine ⟨List.mem_cons_self _ _, ?_⟩
        intro w hw
        rcases List.mem_cons.mp hw with h1 | h2
        · subst h1; exact Nat.le_refl _
        · exact Nat.le_trans (hspec.2 w h2) hc
      · rw [if_neg hc] at h
        cases h
        refine ⟨List.mem_cons_of_mem _ hspec.1, ?_⟩
        intro w hw
        rcases List.mem_cons.mp hw with h1 | h2
        · subst h1; exact Nat.le_of_not_le hc
        · exact hspec.2 w h2

theorem minTsVersion_eq_none {l : List Version} : minTsVersion l = none ↔ l = [] := by
  cases l with
  | nil => simp [minTsVersion]
  | cons a as =>
    simp only [minTsVersion]
    cases minTsVersion as with
    | none => simp
    | some w =>
      by_cases hc : a.timestamp ≤ w.timestamp <;> simp [hc]

theorem minTsVersion_spec {l : List Version} {v : Version}
    (h : minTsVersion l = some v) :
    v ∈ l ∧ ∀ w ∈ l, v.timestamp ≤ w.timestamp := by
  induction l generalizing v with
  | nil => simp [minTsVersion] at h
  | cons a as ih =>
    cases hm : minTsVersion as with
    | none =>
      rw [minTsVersion_cons_none hm] at h
      have has : as = [] := minTsVersion_eq_none.mp hm
      subst has
      simp at h
      subst h
      exact ⟨List.mem_cons_self _ _, by intro w hw; simp at hw; subst hw; exact Nat.le_refl _⟩
    | some m =>
      rw [minTsVersion_cons_some hm] at h
      have hspec := ih hm
      by_cases hc : a.timestamp ≤ m.timestamp
      · rw [if_pos hc] at h
        cases h
        refine ⟨List.mem_cons_self _ _, ?_⟩
        intro w hw
        rcases List.mem_cons.mp hw with h1 | h2
        · subst h1; exact Nat.le_refl _
        · exact Nat.le_trans hc (hspec.2 w h2)
      · rw [if_neg hc] at h
        cases h
        refine ⟨List.mem_cons_of_mem _ hspec.1, ?_⟩
        intro w hw
        rcases List.mem_cons.mp hw with h1 | h2
        · subst h1; exact Nat.le_of_lt (Nat.lt_of_not_le hc)
        · exact hspec.2 w h2

theorem minTsVersion_eq_head {l : List Version}
    (h : l.Pairwise (fun a b => a.timestamp ≤ b.timestamp)) :
    minTsVersion l = l.head? := by
  induction l with
  | nil => rfl
  | cons a as ih =>
    have h' := List.pairwise_cons.mp h
    rw [minTsVersion, ih h'.2]
    cases as with
    | nil => rfl
    | cons b bs =>
      simp only [List.head?]
      rw [if_pos (h'.1 b (List.mem_cons_self b bs))]

theorem maxTsVersion_eq_getLast {l : List Version}
    (h : l.Pairwise (fun a b => a.timestamp < b.timestamp)) :
    maxTsVersion l = l.getLast? := by
  induction l with
  | nil => rfl
  | cons a as ih =>
    have h' := List.pairwise_cons.mp h
    cases has : as with
    | nil => subst has; rfl
    | cons b bs =>
      subst has
      have hne : (b :: bs) ≠ [] := by simp
      have hlast : (b :: bs).getLast? = some ((b :: bs).getLast hne) :=
        List.getLast?_eq_getLast (b :: bs) hne
      have hm : maxTsVersion (b :: bs) = some ((b :: bs).getLast hne) := by
        rw [ih h'.2, hlast]
      rw [maxTsVersion_cons_some hm]
      have hmem : (b :: bs).getLast hne ∈ (b :: bs) := List.getLast_mem hne
      have hlt : a.timestamp < ((b :: bs).getLast hne).timestamp := h'.1 _ hmem
      rw [if_neg (Nat.not_le.mpr hlt), List.getLast?_cons_cons, hlast]

theorem eq_of_mem_of_ts_eq {l : List Version} {v w : Version}
    (h : l.Pairwise (fun a b => a.timestamp < b.timestamp))
    (hv : v ∈ l) (hw : w ∈ l) (hts : v.timestamp = w.timestamp) : v = w := by
  induction l with
  | nil => simp at hv
  | cons a as ih =>
    have h' := List.pairwise_cons.mp h
    rcases List.mem_cons.mp hv with h1 | h1 <;> rcases List.mem_cons.mp hw with h2 | h2
    · subst h1; subst h2; rfl
    · subst h1
      exact absurd hts (Nat.ne_of_lt (h'.1 w h2))
    · subst h2
      exact absurd hts.symm (Nat.ne_of_lt (h'.1 v h1))
    · exact ih h'.2 h1 h2

theorem filter_append_split {α : Type} (p q : α → Bool) (l : List α)
    (h : l.Pairwise (fun a b => p b = true → p a = true)) :
    l.filter q = l.filter (fun x => q x && p x) ++ l.filter (fun x => q x && !(p x)) := by
  induction l with
  | nil => rfl
  | cons a as ih =>
    have h' := List.pairwise_cons.mp h
    by_cases hpa : p a = true
    · have htail := ih h'.2
      cases hqa : q a
      · simp only [List.filter_cons, hqa, hpa, Bool.false_and, cond_false]
        exact htail
      · simp only [List.filter_cons, hqa, hpa, Bool.true_and, Bool.and_true, Bool.not_true,
          Bool.and_false, cond_true, cond_false]
        rw [htail]
        rfl
    · have hnp : ∀ b ∈ as, p b = false := by
        intro b hb
        cases hpb : p b
        · rfl
        · exact absurd (h'.1 b hb hpb) hpa
      have hfst : (a :: as).filter (fun x => q x && p x) = [] := by
        rw [List.filter_eq_nil_iff]
        intro x hx
        rcases List.mem_cons.mp hx with h1 | h1
        · subst h1
          simp [hpa]
        · simp [hnp x h1]
      rw [hfst, List.nil_append]
      apply List.filter_congr
      intro x hx
      rcases List.mem_cons.mp hx with h1 | h1
      · subst h1
        cases hq : q x <;> simp [hpa, hq]
      · cases hq : q x <;> simp [hnp x h1, hq]

theorem filter_beq_eq_singleton {l : List Version} {v : Version}
    (h : l.Pairwise (fun a b => a.timestamp < b.timestamp)) (hv : v ∈ l) :
    l.filter (fun w => w == v) = [v] := by
  induction l with
  | nil => simp at hv
  | cons a as ih =>
    have h' := List.pairwise_cons.mp h
    rcases List.mem_cons.mp hv with h1 | h1
    · subst h1
      have hrest : as.filter (fun w => w == v) = [] := by
        rw [List.filter_eq_nil_iff]
        intro x hx hbe
        have hxv : x = v := eq_of_beq hbe
        subst hxv
        exact absurd rfl (Nat.ne_of_lt (h'.1 x hx))
      simp only [List.filter_cons, beq_self_eq_true, if_true, hrest]
    · have hav : (a == v) = false := by
        cases hbe : a == v
        · rfl
        · have hae : a = v := eq_of_beq hbe
          subst hae
          exact absurd rfl (Nat.ne_of_lt (h'.1 a h1))
      simp only [List.filter_cons, hav]
      rw [if_neg (by simp)]
      exact ih h'.2 h1

theorem length_filter_or_disjoint {α : Type} (q r : α → Bool) (l : List α)
    (h : ∀ x ∈ l, ¬(q x = true ∧ r x = true)) :
    (l.filter (fun x => q x || r x)).length = (l.filter q).length + (l.filter r).length := by
  induction l with
  | nil => rfl
  | cons a as ih =>
    have htail := ih (fun x hx => h x (List.mem_cons_of_mem a hx))
    have hhead := h a (List.mem_cons_self a as)
    cases hqa : q a <;> cases hra : r a
    · simp only [List.filter_cons, hqa, hra, Bool.or_self]
      simp only [Bool.false_eq_true, if_false]
      exact htail
    · simp only [List.filter_cons, hqa, hra, Bool.false_or]
      simp only [Bool.false_eq_true, if_false, if_true, List.length_cons]
      omega
    · simp only [List.filter_cons, hqa, hra, Bool.true_or]
      simp only [Bool.false_eq_true, if_false, if_true, List.length_cons]
      omega
    · exact absurd ⟨hqa, hra⟩ hhead

theorem sum_map_ite_eq_length_filter {α : Type} (p : α → Bool) (L : List α) :
    (L.map (fun x => if p x = true then (1 : Nat) else 0)).sum = (L.filter p).length := by
  induction L with
  | nil => rfl
  | cons a as ih =>
    cases hpa : p a
    · simp only [List.map_cons, List.sum_cons, List.filter_cons, hpa, Bool.false_eq_true,
        if_false]
      omega
    · simp only [List.map_cons, List.sum_cons, List.filter_cons, hpa, if_true,
        List.length_cons]
      omega

theorem bool_eq_of_iff {a b : Bool} (h : a = true ↔ b = true) : a = b := by
  cases a <;> cases b <;> simp_all

theorem filter_filter_eq {α : Type} (p q : α → Bool) (l : List α) :
    (l.filter p).filter q = l.filter (fun x => p x && q x) := by
  induction l with
  | nil => rfl
  | cons a as ih =>
    cases hp : p a <;> cases hq : q a <;>
      simp [List.filter_cons, hp, hq, ih]

theorem map_congr_mem {α β : Type} {f g : α → β} {l : List α}
    (h : ∀ a ∈ l, f a = g a) : l.map f = l.map g := by
  induction l with
  | nil => rfl
  | cons a as ih =>
    simp only [List.map_cons]
    rw [h a (List.mem_cons_self a as), ih (fun x hx => h x (List.mem_cons_of_mem a hx))]

theorem length_filter_fiber (vs : List Version) (p : Version → Bool) :
    ∀ L : List Nat, L.Nodup →
      (vs.filter (fun v => p v && decide (v.lineId ∈ L))).length =
        (L.map (fun lid => (vs.filter (fun v => p v && v.lineId == lid)).length)).sum := by
  intro L
  induction L with
  | nil =>
    intro _
    have : vs.filter (fun v => p v && decide (v.lineId ∈ ([] : List Nat))) = [] := by
      rw [List.filter_eq_nil_iff]
      intro x _
      simp
    rw [this]
    rfl
  | cons lid L' ih =>
    intro hnd
    have hnd' := List.nodup_cons.mp hnd
    have hsplit : vs.filter (fun v => p v && decide (v.lineId ∈ lid :: L')) =
        vs.filter (fun v => (p v && v.lineId == lid) || (p v && decide (v.lineId ∈ L'))) := by
      apply List.filter_congr
      intro v _
      apply bool_eq_of_iff
      simp only [Bool.and_eq_true, Bool.or_eq_true, decide_eq_true_iff, List.mem_cons,
        beq_iff_eq]
      tauto
    rw [hsplit]
    have hdisj : ∀ v ∈ vs,
        ¬((p v && v.lineId == lid) = true ∧ (p v && decide (v.lineId ∈ L')) = true) := by
      intro v _ hcon
      have h1 : v.lineId = lid := by
        have := hcon.1
        simp only [Bool.and_eq_true, beq_iff_eq] at this
        exact this.2
      have h2 : v.lineId ∈ L' := by
        have := hcon.2
        simp only [Bool.and_eq_true, decide_eq_true_iff] at this
        exact this.2
      exact hnd'.1 (h1 ▸ h2)
    rw [length_filter_or_disjoint _ _ _ hdisj, List.map_cons, List.sum_cons,
      ih hnd'.2]

/-- Each line carries at most one IMPORTED version (it can only sit in first
position), so counting IMPORTED versions on a line yields its imported-line
indicator. -/
theorem wfLine_imported_count {s : State} {lid : Nat}
    (hw : wfLine s lid)
    (hp : (versionsOnLine s lid).Pairwise (fun a b => a.timestamp < b.timestamp)) :
    ((versionsOnLine s lid).filter (fun v => v.vtype == VersionType.IMPORTED)).length =
      if (versionsOnLine s lid).any (fun v => v.vtype == VersionType.IMPORTED) then 1 else 0 := by
  obtain ⟨hne, _, hfirst, _⟩ := hw
  cases hvs : versionsOnLine s lid with
  | nil => exact absurd hvs hne
  | cons v0 rest =>
    rw [hvs] at hfirst hp
    have hp' := List.pairwise_cons.mp hp
    have hv0first : ∀ w ∈ v0 :: rest, w.vtype = VersionType.IMPORTED → w = v0 := by
      intro w hw himp
      have hthis := hfirst w hw (Or.inl himp)
      simp only [List.head?] at hthis
      exact (Option.some_inj.mp hthis).symm
    have hrest : rest.filter (fun v => v.vtype == VersionType.IMPORTED) = [] := by
      rw [List.filter_eq_nil_iff]
      intro w hwr hbe
      have hwi : w.vtype = VersionType.IMPORTED := by simpa using hbe
      have hw0 : w = v0 := hv0first w (List.mem_cons_of_mem v0 hwr) hwi
      subst hw0
      exact absurd rfl (Nat.ne_of_lt (hp'.1 w hwr))
    cases himp0 : (v0.vtype == VersionType.IMPORTED)
    · have hany : (v0 :: rest).any (fun v => v.vtype == VersionType.IMPORTED) = false := by
        rw [List.any_eq_false]
        intro w hwmem
        rcases List.mem_cons.mp hwmem with h1 | h1
        · subst h1
          simp [himp0]
        · intro hbe
          have hwi : w.vtype = VersionType.IMPORTED := by simpa using hbe
          have hw0 : w = v0 := hv0first w hwmem hwi
          subst hw0
          exact absurd rfl (Nat.ne_of_lt (hp'.1 w h1))
      rw [hany]
      simp only [List.filter_cons, himp0, Bool.false_eq_true, if_false, hrest]
      rfl
    · have hany : (v0 :: rest).any (fun v => v.vtype == VersionType.IMPORTED) = true := by
        rw [List.any_eq_true]
        exact ⟨v0, List.mem_cons_self v0 rest, himp0⟩
      rw [hany]
      simp only [List.filter_cons, himp0, if_true, hrest]
      rfl

/-- Claim C3 (amended): `BlockProxy.getTimeline` is exactly the claim's
description — the versions on claimed lines with kind neither IMPORTED nor
CLONE, ascending by timestamp, with the last IMPORTED version kept as the
single original anchor at the front. -/
theorem c3_timeline_proxy_amended (s : State) (b : Blk)
    (hs : WfS s) (hb : WfB s b) :
    Proxy.getTimeline s b = c3SpecTimeline s b := by
  have hsv : (blockVersions s b).Pairwise (fun a c => a.timestamp < c.timestamp) :=
    List.Pairwise.sublist (List.filter_sublist _) hs.1
  have hsle : (blockVersions s b).Pairwise (fun a c => a.timestamp ≤ c.timestamp) :=
    hsv.imp (fun h => Nat.le_of_lt h)
  cases hli : Proxy.getLastImportedVersion s b with
  | none =>
    have hnil : (blockVersions s b).filter (fun v => v.vtype == VersionType.IMPORTED) = [] :=
      maxTsVersion_eq_none.mp hli
    have hnoimp : ∀ v ∈ blockVersions s b, ¬(v.vtype = VersionType.IMPORTED) := by
      intro v hv hcon
      have := List.filter_eq_nil_iff.mp hnil v hv
      simp [hcon] at this
    unfold Proxy.getTimeline c3SpecTimeline
    rw [hli]
    apply congrArg
    apply List.filter_congr
    intro v hv
    apply bool_eq_of_iff
    simp only [Bool.and_eq_true, Bool.not_eq_true', beq_eq_false_iff_ne, ne_eq,
      decide_eq_true_iff]
    constructor
    · intro h1
      exact ⟨hnoimp v hv, h1.1⟩
    · intro h1
      exact ⟨h1.2, trivial⟩
  | some li =>
    have hli' : maxTsVersion
        ((blockVersions s b).filter (fun v => v.vtype == VersionType.IMPORTED)) = some li :=
      hli
    have hspec := maxTsVersion_spec hli'
    have hliMem : li ∈ blockVersions s b ∧ (li.vtype == VersionType.IMPORTED) = true :=
      List.mem_filter.mp hspec.1
    have hliImp : li.vtype = VersionType.IMPORTED := by simpa using hliMem.2
    have hmax : ∀ w ∈ blockVersions s b, w.vtype = VersionType.IMPORTED →
        w.timestamp ≤ li.timestamp := by
      intro w hw himp
      exact hspec.2 w (List.mem_filter.mpr ⟨hw, by simp [himp]⟩)
    have himpfirst : (blockVersions s b).Pairwise (fun a c =>
        (c.vtype == VersionType.IMPORTED) = true → (a.vtype == VersionType.IMPORTED) = true) := by
      apply List.Pairwise.imp_of_mem ?_ hsv
      intro a c ha hc hlt hcimp
      by_contra hanot
      have hcimp' : c.vtype = VersionType.IMPORTED := by simpa using hcimp
      have hanot' : ¬(a.vtype = VersionType.IMPORTED) := by simpa using hanot
      have := hb.2.1 c hc a ha hcimp' hanot'
      omega
    unfold Proxy.getTimeline c3SpecTimeline
    rw [hli]
    have hsplit := filter_append_split (fun v => v.vtype == VersionType.IMPORTED)
      (fun v => !(v.vtype == VersionType.CLONE) && decide (li.timestamp ≤ v.timestamp))
      (blockVersions s b) himpfirst
    have hfst : (blockVersions s b).filter (fun v =>
        (!(v.vtype == VersionType.CLONE) && decide (li.timestamp ≤ v.timestamp)) &&
          (v.vtype == VersionType.IMPORTED)) = [li] := by
      rw [@List.filter_congr _ _ (fun v => v == li) _ ?_]
      · exact filter_beq_eq_singleton hsv hliMem.1
      · intro v hv
        apply bool_eq_of_iff
        simp only [Bool.and_eq_true, Bool.not_eq_true', beq_eq_false_iff_ne, ne_eq,
          decide_eq_true_iff, beq_iff_eq]
        constructor
        · intro h1
          have hvimp : v.vtype = VersionType.IMPORTED := h1.2
          have hle1 : v.timestamp ≤ li.timestamp := hmax v hv hvimp
          have hle2 : li.timestamp ≤ v.timestamp := h1.1.2
          exact eq_of_mem_of_ts_eq hsv hv hliMem.1 (Nat.le_antisymm hle1 hle2)
        · intro h1
          subst h1
          refine ⟨⟨?_, Nat.le_refl _⟩, hliImp⟩
          rw [hliImp]
          intro hcon
          cases hcon
    have hsnd : (blockVersions s b).filter (fun v =>
        (!(v.vtype == VersionType.CLONE) && decide (li.timestamp ≤ v.timestamp)) &&
          !(v.vtype == VersionType.IMPORTED)) =
        (blockVersions s b).filter (fun v =>
          !(v.vtype == VersionType.IMPORTED) && !(v.vtype == VersionType.CLONE)) := by
      apply List.filter_congr
      intro v hv
      apply bool_eq_of_iff
      simp only [Bool.and_eq_true, Bool.not_eq_true', beq_eq_false_iff_ne, ne_eq,
        decide_eq_true_iff]
      constructor
      · intro h1
        exact ⟨h1.2, h1.1.1⟩
      · intro h1
        refine ⟨⟨h1.2, ?_⟩, h1.1⟩
        exact Nat.le_of_lt (hb.2.1 li hliMem.1 v hv hliImp h1.1)
    rw [sortTs_eq_of_sorted (List.Pairwise.sublist (List.filter_sublist _) hsle),
      sortTs_eq_of_sorted (List.Pairwise.sublist (List.filter_sublist _) hsle),
      hsplit, hfst, hsnd]
    rfl

/-- Claim C3 (witness): the amended timeline equation holds on the concrete
insertion scenario. -/
theorem c3_timeline_proxy_amended_witness :
    WfS sIns ∧ WfB sIns rootIns ∧ Proxy.getTimeline sIns rootIns = c3SpecTimeline sIns rootIns :=
  ⟨by decide, by decide, c3_timeline_proxy_amended sIns rootIns (by decide) (by decide)⟩

/-- Claim C4 (amended): the user-visible version count of the persisted path
(`BlockProxy.asBlockInfo`) equals the number of non-CLONE versions on the
claimed lines, minus the number of imported claimed lines, plus 1 when any
claimed line is imported. -/
theorem c4_userVersionCount_proxy_amended (s : State) (b : Blk) (hs : WfS s) :
    Proxy.userVersionCount s b =
      (((blockVersions s b).filter (fun v => !(v.vtype == VersionType.CLONE))).length : Int) -
        (importedLineCount s b : Int) +
        (if anyImportedLine s b then 1 else 0) := by
  obtain ⟨hpw, hnodup, hwl, hbl, hvl, _⟩ := hs
  have horig : Proxy.getOriginalLineCount s b = importedLineCount s b := by
    unfold Proxy.getOriginalLineCount blockVersions
    rw [filter_filter_eq]
    have hstep : s.versions.filter (fun v =>
        claims s b.id v.lineId && (v.vtype == VersionType.IMPORTED)) =
        s.versions.filter (fun v =>
          (v.vtype == VersionType.IMPORTED) && decide (v.lineId ∈ claimedLines s b)) := by
      apply List.filter_congr
      intro v hv
      apply bool_eq_of_iff
      simp only [Bool.and_eq_true, decide_eq_true_iff]
      have hmem : v.lineId ∈ claimedLines s b ↔ claims s b.id v.lineId = true := by
        unfold claimedLines
        rw [List.mem_filter]
        exact ⟨fun h => h.2, fun h => ⟨hvl v hv, h⟩⟩
      tauto
    have hndcl : (claimedLines s b).Nodup := List.Nodup.filter _ hnodup
    rw [hstep, length_filter_fiber s.versions (fun v => v.vtype == VersionType.IMPORTED)
      (claimedLines s b) hndcl]
    have hperline : ∀ lid ∈ claimedLines s b,
        (s.versions.filter (fun v =>
          (v.vtype == VersionType.IMPORTED) && v.lineId == lid)).length =
        (if (versionsOnLine s lid).any (fun v => v.vtype == VersionType.IMPORTED)
          then (1 : Nat) else 0) := by
      intro lid hlid
      have hfile : lid ∈ s.fileLines := (List.mem_filter.mp hlid).1
      have hcomm : s.versions.filter (fun v =>
          (v.vtype == VersionType.IMPORTED) && v.lineId == lid) =
          (versionsOnLine s lid).filter (fun v => v.vtype == VersionType.IMPORTED) := by
        unfold versionsOnLine
        rw [filter_filter_eq]
        apply List.filter_congr
        intro v _
        apply bool_eq_of_iff
        simp only [Bool.and_eq_true]
        tauto
      rw [hcomm]
      exact wfLine_imported_count (hwl lid hfile)
        (List.Pairwise.sublist (List.filter_sublist _) hpw)
    rw [map_congr_mem hperline, sum_map_ite_eq_length_filter]
    rfl
  have hany : (Proxy.getLastImportedVersion s b).isSome = anyImportedLine s b := by
    apply bool_eq_of_iff
    unfold Proxy.getLastImportedVersion anyImportedLine
    constructor
    · intro h1
      cases hm : maxTsVersion
          ((blockVersions s b).filter (fun v => v.vtype == VersionType.IMPORTED)) with
      | none => rw [hm] at h1; cases h1
      | some li =>
        have hspec := maxTsVersion_spec hm
        have hmemf := List.mem_filter.mp hspec.1
        have hmemb := List.mem_filter.mp hmemf.1
        have hfile : li.lineId ∈ s.fileLines := hvl li hmemb.1
        rw [List.any_eq_true]
        refine ⟨li.lineId, List.mem_filter.mpr ⟨hfile, hmemb.2⟩, ?_⟩
        rw [List.any_eq_true]
        exact ⟨li, List.mem_filter.mpr ⟨hmemb.1, by simp⟩, hmemf.2⟩
    · intro h1
      rw [List.any_eq_true] at h1
      obtain ⟨lid, hlid, hinner⟩ := h1
      rw [List.any_eq_true] at hinner
      obtain ⟨v, hv, hvimp⟩ := hinner
      have hvmem := List.mem_filter.mp hv
      have hclaims : claims s b.id lid = true := (List.mem_filter.mp hlid).2
      have hvlid : v.lineId = lid := by simpa using hvmem.2
      have hvb : v ∈ blockVersions s b :=
        List.mem_filter.mpr ⟨hvmem.1, by rw [hvlid]; exact hclaims⟩
      have hne : (blockVersions s b).filter
          (fun w => w.vtype == VersionType.IMPORTED) ≠ [] := by
        intro hcon
        exact absurd hvimp (by simpa using List.filter_eq_nil_iff.mp hcon v hvb)
      cases hm : maxTsVersion
          ((blockVersions s b).filter (fun w => w.vtype == VersionType.IMPORTED)) with
      | none => exact absurd (maxTsVersion_eq_none.mp hm) hne
      | some li => rfl
  unfold Proxy.userVersionCount Proxy.getVersionCount
  rw [horig, hany]

/-! ### apply_index: reduction lemmas -/

theorem getTimeline_resetMarker (s : State) (b : Blk) :
    Core.getTimeline s { b with lastModifiedLineId := none } = Core.getTimeline s b := rfl

theorem getCurrentVersionIndex_resetMarker (s : State) (b : Blk) :
    Core.getCurrentVersionIndex s { b with lastModifiedLineId := none } =
      Core.getCurrentVersionIndex s b := rfl

theorem snapChoose_resetMarker (s : State) (b : Blk) (tl : List Version) (c i : Nat) :
    Core.snapChoose s { b with lastModifiedLineId := none } tl c i =
      Core.snapChoose s b tl c i := rfl

/-- In bounds and with a current version index, `Block.applyIndex` applies
the timestamp of the snap-rule choice. -/
theorem applyIndex_reduce (s : State) (b : Blk) (i curIdx : Nat)
    (hcur : Core.getCurrentVersionIndex s b = some curIdx)
    (hlen : i < (Core.getTimeline s b).length) :
    Core.applyIndex s b (i : Int) =
      applyOutcome b (Core.snapChoose s b (Core.getTimeline s b) curIdx i) := by
  have h0 : ¬((i : Int) < 0) := by omega
  have h1 : ¬(((Core.getTimeline s b).length : Int) ≤ (i : Int)) := by
    omega
  show (if (decide ((i : Int) < 0) ||
        decide (((Core.getTimeline s b).length : Int) ≤ (i : Int))) = true then
      ({ failed := true, block := { b with lastModifiedLineId := none } } : Core.MemResult)
    else
      match Core.getCurrentVersionIndex s b with
      | none => { failed := true, block := { b with lastModifiedLineId := none } }
      | some curIdx =>
        match Core.snapChoose s b (Core.getTimeline s b) curIdx i with
        | some v =>
          { failed := false,
            block := { b with lastModifiedLineId := none, timestamp := v.timestamp } }
        | none => { failed := true, block := { b with lastModifiedLineId := none } }) =
      applyOutcome b (Core.snapChoose s b (Core.getTimeline s b) curIdx i)
  rw [if_neg (by simp [h0, h1]), hcur]
  cases hsc : Core.snapChoose s b (Core.getTimeline s b) curIdx i <;>
    simp [applyOutcome, hsc]

/-- With the selected and latest entries fixed, `snapChoose` is the literal
four-branch conditional of the source. -/
theorem snapChoose_eq_if (s : State) (b : Blk) (tl : List Version) (curIdx i : Nat)
    (sel latest : Version) (hsel : tl[i]? = some sel) (hlat : tl[curIdx]? = some latest) :
    Core.snapChoose s b tl curIdx i =
      if (match prevEntry tl i with
          | some p => p == latest && Core.preInsertionEngaged s b p
          | none => false) then
        (prevEntry tl i).bind (fun p => nextOnLine s p)
      else if (match tl[i + 1]? with
          | some n => n == latest && Core.preInsertionReleased s b n
          | none => false) then
        tl[i + 1]?
      else if (sel.vtype == VersionType.PRE_INSERTION &&
          (Core.isHeadOf s b sel ||
            (match tl[i + 1]? with
             | some n => Core.isHeadOf s b n
             | none => false))) then
        nextOnLine s sel
      else some sel := by
  unfold Core.snapChoose
  rw [hsel, hlat]

theorem snapChoose_rule1 (s : State) (b : Blk) (tl : List Version) (curIdx i : Nat)
    (sel latest : Version) (hsel : tl[i]? = some sel) (hlat : tl[curIdx]? = some latest)
    (hr1 : prevEntry tl i = some latest ∧ engagedProp s b latest) :
    Core.snapChoose s b tl curIdx i = nextOnLine s latest := by
  rw [snapChoose_eq_if s b tl curIdx i sel latest hsel hlat]
  have hc1 : (match prevEntry tl i with
      | some p => p == latest && Core.preInsertionEngaged s b p
      | none => false) = true := by
    rw [hr1.1]
    simp [Core.preInsertionEngaged, hr1.2.1, hr1.2.2]
  rw [if_pos hc1, hr1.1]
  rfl

theorem rule1_bool_false (s : State) (b : Blk) (tl : List Version) (i : Nat)
    (latest : Version)
    (hnr1 : ¬(prevEntry tl i = some latest ∧ engagedProp s b latest)) :
    (match prevEntry tl i with
      | some p => p == latest && Core.preInsertionEngaged s b p
      | none => false) = false := by
  cases hpe : prevEntry tl i with
  | none => rfl
  | some p =>
    by_cases hpl : p = latest
    · subst hpl
      cases heng : Core.preInsertionEngaged s b p
      · simp [heng]
      · exfalso
        apply hnr1
        refine ⟨hpe, ?_, ?_⟩
        · have hand := heng
          unfold Core.preInsertionEngaged at hand
          rw [Bool.and_eq_true] at hand
          exact beq_iff_eq.mp hand.1
        · have hand := heng
          unfold Core.preInsertionEngaged at hand
          rw [Bool.and_eq_true] at hand
          exact hand.2
    · have : (p == latest) = false := beq_eq_false_iff_ne.mpr hpl
      simp [this]

theorem rule2_bool_false (s : State) (b : Blk) (tl : List Version) (i : Nat)
    (latest : Version)
    (hnr2 : ¬(tl[i + 1]? = some latest ∧ releasedProp s b latest)) :
    (match tl[i + 1]? with
      | some n => n == latest && Core.preInsertionReleased s b n
      | none => false) = false := by
  cases hne : tl[i + 1]? with
  | none => rfl
  | some n =>
    by_cases hnl : n = latest
    · subst hnl
      cases hrel : Core.preInsertionReleased s b n
      · simp [hrel]
      · exfalso
        apply hnr2
        refine ⟨hne, ?_, ?_⟩
        · have hand := hrel
          unfold Core.preInsertionReleased at hand
          rw [Bool.and_eq_true] at hand
          exact beq_iff_eq.mp hand.1
        · have hand := hrel
          unfold Core.preInsertionReleased at hand
          rw [Bool.and_eq_true] at hand
          cases hnext : nextOnLine s n with
          | none => rw [hnext] at hand; cases hand.2
          | some w =>
            rw [hnext] at hand
            exact ⟨w, rfl, hand.2⟩
    · have : (n == latest) = false := beq_eq_false_iff_ne.mpr hnl
      simp [this]

theorem snapChoose_rule2 (s : State) (b : Blk) (tl : List Version) (curIdx i : Nat)
    (sel latest : Version) (hsel : tl[i]? = some sel) (hlat : tl[curIdx]? = some latest)
    (hnr1 : ¬(prevEntry tl i = some latest ∧ engagedProp s b latest))
    (hr2 : tl[i + 1]? = some latest ∧ releasedProp s b latest) :
    Core.snapChoose s b tl curIdx i = some latest := by
  rw [snapChoose_eq_if s b tl curIdx i sel latest hsel hlat]
  rw [rule1_bool_false s b tl i latest hnr1]
  rw [if_neg (by simp)]
  have hc2 : (match tl[i + 1]? with
      | some n => n == latest && Core.preInsertionReleased s b n
      | none => false) = true := by
    rw [hr2.1]
    obtain ⟨w, hw, hhead⟩ := hr2.2.2
    simp [Core.preInsertionReleased, hr2.2.1, hw, hhead]
  rw [if_pos hc2]
  exact hr2.1

theorem snapChoose_rule3 (s : State) (b : Blk) (tl : List Version) (curIdx i : Nat)
    (sel latest : Version) (hsel : tl[i]? = some sel) (hlat : tl[curIdx]? = some latest)
    (hnr1 : ¬(prevEntry tl i = some latest ∧ engagedProp s b latest))
    (hnr2 : ¬(tl[i + 1]? = some latest ∧ releasedProp s b latest))
    (hr3 : sel.vtype = VersionType.PRE_INSERTION ∧
      (Core.isHeadOf s b sel = true ∨
        ∃ n, tl[i + 1]? = some n ∧ Core.isHeadOf s b n = true)) :
    Core.snapChoose s b tl curIdx i = nextOnLine s sel := by
  rw [snapChoose_eq_if s b tl curIdx i sel latest hsel hlat]
  rw [rule1_bool_false s b tl i latest hnr1]
  rw [if_neg (by simp)]
  rw [rule2_bool_false s b tl i latest hnr2]
  rw [if_neg (by simp)]
  have hc3 : (sel.vtype == VersionType.PRE_INSERTION &&
      (Core.isHeadOf s b sel ||
        (match tl[i + 1]? with
         | some n => Core.isHeadOf s b n
         | none => false))) = true := by
    rcases hr3.2 with hh | ⟨n, hn, hh⟩
    · simp [hr3.1, hh]
    · rw [hn]
      simp [hr3.1, hh]
  rw [if_pos hc3]

theorem snapChoose_rule4 (s : State) (b : Blk) (tl : List Version) (curIdx i : Nat)
    (sel latest : Version) (hsel : tl[i]? = some sel) (hlat : tl[curIdx]? = some latest)
    (hnr1 : ¬(prevEntry tl i = some latest ∧ engagedProp s b latest))
    (hnr2 : ¬(tl[i + 1]? = some latest ∧ releasedProp s b latest))
    (hnr3 : ¬(sel.vtype = VersionType.PRE_INSERTION ∧
      (Core.isHeadOf s b sel = true ∨
        ∃ n, tl[i + 1]? = some n ∧ Core.isHeadOf s b n = true))) :
    Core.snapChoose s b tl curIdx i = some sel := by
  rw [snapChoose_eq_if s b tl curIdx i sel latest hsel hlat]
  rw [rule1_bool_false s b tl i latest hnr1]
  rw [if_neg (by simp)]
  rw [rule2_bool_false s b tl i latest hnr2]
  rw [if_neg (by simp)]
  have hc3 : (sel.vtype == VersionType.PRE_INSERTION &&
      (Core.isHeadOf s b sel ||
        (match tl[i + 1]? with
         | some n => Core.isHeadOf s b n
         | none => false))) = false := by
    by_cases hpre : sel.vtype = VersionType.PRE_INSERTION
    · cases hhd : Core.isHeadOf s b sel
      · cases hne : tl[i + 1]? with
        | none => simp [hhd, hne]
        | some n =>
          cases hhn : Core.isHeadOf s b n
          · simp [hhd, hne, hhn]
          · exact absurd ⟨hpre, Or.inr ⟨n, hne, hhn⟩⟩ hnr3
      · exact absurd ⟨hpre, Or.inl hhd⟩ hnr3
    · have : (sel.vtype == VersionType.PRE_INSERTION) = false := beq_eq_false_iff_ne.mpr hpre
      simp [this]
  rw [if_neg (by simp [hc3])]

/-- Claim C4 (witness): the amended count formula holds on the concrete
insertion scenario (2 non-CLONE versions minus 1 imported line plus 1 gives
the proxy's 3). -/
theorem c4_userVersionCount_proxy_amended_witness :
    WfS sIns ∧ Proxy.userVersionCount sIns rootIns = 3 := by
  constructor
  · decide
  · rw [c4_userVersionCount_proxy_amended sIns rootIns (by decide)]
    decide

/-- Claim C1 (counterexample): in the insertion scenario (line "new" just
inserted and visible), selecting the PRE_INSERTION timeline entry with the
persisted `BlockProxy.applyIndex` applies timestamp 2 (hiding the line),
while the claim's four snap rules require the successor's timestamp 3 (rule
3: the selected entry is PRE_INSERTION and the next entry is the current
head).  The persisted path has no snap rules, so the claim as stated is
false at this input. -/
theorem c1_counterexample :
    Proxy.applyIndex sIns rootIns 1 = some { rootIns with timestamp := 2 } ∧
    specApplyIndexTs sIns rootIns (Proxy.getTimeline sIns rootIns) 1 = some 3 ∧
    ¬(2 = (3 : Nat)) := by
  decide

/-- Claim C1 (amended): the in-memory `Block.applyIndex` selects the version
by the four snap rules — (1) previous entry latest and engaged PRE_INSERTION:
its successor; (2) next entry latest and released PRE_INSERTION: that next
entry; (3) selected entry PRE_INSERTION with it or the next entry the current
head: its successor; (4) otherwise the selected entry — and then performs
apply_timestamp(v.timestamp).  The persisted `BlockProxy.applyIndex` instead
always applies the selected entry's timestamp directly, with no snap rules. -/
theorem c1_applyIndex_snap_rules_amended (s : State) (b : Blk) (i curIdx : Nat)
    (sel latest : Version)
    (hcur : Core.getCurrentVersionIndex s b = some curIdx)
    (hlen : i < (Core.getTimeline s b).length)
    (hsel : (Core.getTimeline s b)[i]? = some sel)
    (hlat : (Core.getTimeline s b)[curIdx]? = some latest) :
    ((prevEntry (Core.getTimeline s b) i = some latest ∧ engagedProp s b latest) →
      Core.applyIndex s b (i : Int) = applyOutcome b (nextOnLine s latest)) ∧
    (¬(prevEntry (Core.getTimeline s b) i = some latest ∧ engagedProp s b latest) →
      ((Core.getTimeline s b)[i + 1]? = some latest ∧ releasedProp s b latest) →
      Core.applyIndex s b (i : Int) = applyOutcome b (some latest)) ∧
    (¬(prevEntry (Core.getTimeline s b) i = some latest ∧ engagedProp s b latest) →
      ¬((Core.getTimeline s b)[i + 1]? = some latest ∧ releasedProp s b latest) →
      (sel.vtype = VersionType.PRE_INSERTION ∧
        (Core.isHeadOf s b sel = true ∨
          ∃ n, (Core.getTimeline s b)[i + 1]? = some n ∧ Core.isHeadOf s b n = true)) →
      Core.applyIndex s b (i : Int) = applyOutcome b (nextOnLine s sel)) ∧
    (¬(prevEntry (Core.getTimeline s b) i = some latest ∧ engagedProp s b latest) →
      ¬((Core.getTimeline s b)[i + 1]? = some latest ∧ releasedProp s b latest) →
      ¬(sel.vtype = VersionType.PRE_INSERTION ∧
        (Core.isHeadOf s b sel = true ∨
          ∃ n, (Core.getTimeline s b)[i + 1]? = some n ∧ Core.isHeadOf s b n = true)) →
      Core.applyIndex s b (i : Int) = applyOutcome b (some sel)) ∧
    (∀ (j : Nat) (w : Version), (Proxy.getTimeline s b)[j]? = some w →
      Proxy.applyIndex s b (j : Int) = some { b with timestamp := w.timestamp }) := by
  refine ⟨?_, ?_, ?_, ?_, ?_⟩
  · intro hr1
    rw [applyIndex_reduce s b i curIdx hcur hlen,
      snapChoose_rule1 s b (Core.getTimeline s b) curIdx i sel latest hsel hlat hr1]
  · intro hnr1 hr2
    rw [applyIndex_reduce s b i curIdx hcur hlen,
      snapChoose_rule2 s b (Core.getTimeline s b) curIdx i sel latest hsel hlat hnr1 hr2]
  · intro hnr1 hnr2 hr3
    rw [applyIndex_reduce s b i curIdx hcur hlen,
      snapChoose_rule3 s b (Core.getTimeline s b) curIdx i sel latest hsel hlat hnr1 hnr2 hr3]
  · intro hnr1 hnr2 hnr3
    rw [applyIndex_reduce s b i curIdx hcur hlen,
      snapChoose_rule4 s b (Core.getTimeline s b) curIdx i sel latest hsel hlat hnr1 hnr2 hnr3]
  · intro j w hw
    have hjlen : j < (Proxy.getTimeline s b).length := by
      by_contra hcon
      rw [List.getElem?_eq_none (Nat.le_of_not_lt hcon)] at hw
      cases hw
    have h0 : ¬((j : Int) < 0) := by omega
    have h1 : ¬(((Proxy.getTimeline s b).length : Int) ≤ (j : Int)) := by omega
    unfold Proxy.applyIndex
    rw [if_neg (by simp [h0, h1]), Int.toNat_natCast, hw]

/-- Claim C1 (witness): the amended rule characterisation applied to the
insertion scenario at the PRE_INSERTION entry of the in-memory timeline: no
rule fires there (the placeholder is last in the timeline and not the head),
so the placeholder's own timestamp 2 is applied. -/
theorem c1_applyIndex_snap_rules_amended_witness :
    Core.applyIndex sIns rootIns (1 : Int) = applyOutcome rootIns (some preNew) := by
  have h := c1_applyIndex_snap_rules_amended sIns rootIns 1 1 preNew preNew
    (by decide) (by decide) (by decide) (by decide)
  apply h.2.2.2.1
  · intro hcon
    exact absurd hcon.1 (by decide)
  · intro hcon
    exact absurd hcon.1 (by decide)
  · intro hcon
    rcases hcon.2 with hh | ⟨n, hn, _⟩
    · exact absurd hh (by decide)
    · rw [show (Core.getTimeline sIns rootIns)[1 + 1]? = none from by decide] at hn
      cases hn

/-- Claim C7 (counterexample): `Block.applyIndex` resets the version-merging
marker (`resetVersionMerging`, block.ts:461) before validating the index, so
an out-of-range call fails but still mutates the block: the marker is
cleared.  The claim's "leaves the Block's state entirely unchanged (no
timestamp change and no other mutation of the Block)" is therefore false. -/
theorem c7_counterexample :
    (Core.applyIndex sIns rootInsMarked (-1)).failed = true ∧
    (Core.applyIndex sIns rootInsMarked (-1)).block ≠ rootInsMarked := by
  decide

/-- Claim C7 (amended): an out-of-range apply_index fails and changes neither
the block's timestamp nor any line or version state; the persisted path
changes nothing at all, while the in-memory path's only mutation is clearing
the version-merging marker before validating. -/
theorem c7_applyIndex_out_of_range_amended (s : State) (b : Blk) (i : Int) :
    ((i < 0 ∨ ((Core.getTimeline s b).length : Int) ≤ i) →
      Core.applyIndex s b i =
        { failed := true, block := { b with lastModifiedLineId := none } }) ∧
    ((i < 0 ∨ ((Proxy.getTimeline s b).length : Int) ≤ i) →
      Proxy.applyIndex s b i = none) := by
  constructor
  · intro h
    unfold Core.applyIndex
    rw [getTimeline_resetMarker]
    rw [if_pos (by rcases h with h | h <;> simp [h])]
  · intro h
    unfold Proxy.applyIndex
    rw [if_pos (by rcases h with h | h <;> simp [h])]

/-- Claim C7 (witness): out-of-range index -1 on the insertion scenario fails
on both paths; the in-memory block comes back with only the marker cleared. -/
theorem c7_applyIndex_out_of_range_amended_witness :
    Core.applyIndex sIns rootIns (-1) =
      { failed := true, block := { rootIns with lastModifiedLineId := none } } ∧
    Proxy.applyIndex sIns rootIns (-1) = none :=
  ⟨(c7_applyIndex_out_of_range_amended sIns rootIns (-1)).1 (Or.inl (by decide)),
   (c7_applyIndex_out_of_range_amended sIns rootIns (-1)).2 (Or.inl (by decide))⟩

/-! ### Heads at the current version's timestamp (claim C8) -/

theorem mem_of_getElemOpt {α : Type} {l : List α} {i : Nat} {x : α}
    (h : l[i]? = some x) : x ∈ l := by
  induction l generalizing i with
  | nil => simp at h
  | cons a as ih =>
    cases i with
    | zero =>
      rw [List.getElem?_cons_zero] at h
      injection h with h2
      subst h2
      exact List.mem_cons_self _ _
    | succ n =>
      rw [List.getElem?_cons_succ] at h
      exact List.mem_cons_of_mem _ (ih h)

theorem findIdx_elem_prop {α : Type} (p : α → Bool) (l : List α) (x : α)
    (hx : l[l.findIdx p]? = some x) : p x = true := by
  induction l with
  | nil => simp at hx
  | cons a as ih =>
    by_cases hpa : p a = true
    · simp only [List.findIdx_cons, hpa, cond_true] at hx
      rw [List.getElem?_cons_zero] at hx
      injection hx with hax
      subst hax
      exact hpa
    · have hpa' : p a = false := by
        cases hp2 : p a
        · rfl
        · exact absurd hp2 hpa
      simp only [List.findIdx_cons, hpa', cond_false] at hx
      rw [List.getElem?_cons_succ] at hx
      exact ih hx

theorem versionsOnLine_mem {s : State} {lid : Nat} {v : Version}
    (h : v ∈ versionsOnLine s lid) : v ∈ s.versions ∧ v.lineId = lid := by
  have hf := List.mem_filter.mp h
  exact ⟨hf.1, by simpa using hf.2⟩

theorem mem_blockVersions_of_line {s : State} {b : Blk} {lid : Nat} {v : Version}
    (hlid : lid ∈ claimedLines s b) (h : v ∈ versionsOnLine s lid) :
    v ∈ blockVersions s b := by
  obtain ⟨h1, h2⟩ := versionsOnLine_mem h
  refine List.mem_filter.mpr ⟨h1, ?_⟩
  rw [h2]
  exact (List.mem_filter.mp hlid).2

theorem versionsOnLine_pairwise {s : State} (hs : WfS s) (lid : Nat) :
    (versionsOnLine s lid).Pairwise (fun a c => a.timestamp < c.timestamp) :=
  List.Pairwise.sublist (List.filter_sublist _) hs.1

theorem headAtLine_eq_some_of_max {s : State} {t lid : Nat} {m : Version}
    (hm : maxTsVersion ((versionsOnLine s lid).filter (fun v => v.timestamp ≤ t)) = some m) :
    headAtLine s t lid = some m := by
  unfold headAtLine
  rw [hm]

theorem headAtLine_eq_min_of_max_none {s : State} {t lid : Nat}
    (hm : maxTsVersion ((versionsOnLine s lid).filter (fun v => v.timestamp ≤ t)) = none) :
    headAtLine s t lid = minTsVersion (versionsOnLine s lid) := by
  unfold headAtLine
  rw [hm]

theorem headAtLine_isSome {s : State} {t lid : Nat}
    (hne : versionsOnLine s lid ≠ []) : (headAtLine s t lid).isSome = true := by
  cases hm : maxTsVersion ((versionsOnLine s lid).filter (fun v => v.timestamp ≤ t)) with
  | some m => rw [headAtLine_eq_some_of_max hm]; rfl
  | none =>
    rw [headAtLine_eq_min_of_max_none hm]
    cases hmin : minTsVersion (versionsOnLine s lid) with
    | some m => rfl
    | none => exact absurd (minTsVersion_eq_none.mp hmin) hne

theorem headAtLine_eq_max {s : State} {t lid : Nat} {v : Version}
    (hmem : v ∈ versionsOnLine s lid) (hle : v.timestamp ≤ t)
    (hmax : ∀ w ∈ versionsOnLine s lid, w.timestamp ≤ t → w.timestamp ≤ v.timestamp)
    (hpw : (versionsOnLine s lid).Pairwise (fun a c => a.timestamp < c.timestamp)) :
    headAtLine s t lid = some v := by
  cases hm : maxTsVersion ((versionsOnLine s lid).filter (fun w => w.timestamp ≤ t)) with
  | none =>
    exfalso
    have hnil := maxTsVersion_eq_none.mp hm
    have hvin : v ∈ (versionsOnLine s lid).filter (fun w => w.timestamp ≤ t) :=
      List.mem_filter.mpr ⟨hmem, by simp [hle]⟩
    rw [hnil] at hvin
    simp at hvin
  | some m =>
    rw [headAtLine_eq_some_of_max hm]
    have hspec := maxTsVersion_spec hm
    have hmf := List.mem_filter.mp hspec.1
    have hmle : m.timestamp ≤ t := by simpa using hmf.2
    have h1 : m.timestamp ≤ v.timestamp := hmax m hmf.1 hmle
    have h2 : v.timestamp ≤ m.timestamp :=
      hspec.2 v (List.mem_filter.mpr ⟨hmem, by simp [hle]⟩)
    rw [eq_of_mem_of_ts_eq hpw hmf.1 hmem (Nat.le_antisymm h1 h2)]

theorem headAtLine_eq_fallback {s : State} {t lid : Nat}
    (hnone : ∀ w ∈ versionsOnLine s lid, ¬(w.timestamp ≤ t)) :
    headAtLine s t lid = minTsVersion (versionsOnLine s lid) := by
  apply headAtLine_eq_min_of_max_none
  rw [maxTsVersion_eq_none, List.filter_eq_nil_iff]
  intro w hw
  simp [hnone w hw]

theorem headAtLine_spec {s : State} {t lid : Nat} {v : Version}
    (h : headAtLine s t lid = some v) :
    (v ∈ versionsOnLine s lid ∧ v.timestamp ≤ t ∧
      ∀ w ∈ versionsOnLine s lid, w.timestamp ≤ t → w.timestamp ≤ v.timestamp) ∨
    (minTsVersion (versionsOnLine s lid) = some v ∧
      ∀ w ∈ versionsOnLine s lid, ¬(w.timestamp ≤ t)) := by
  cases hm : maxTsVersion ((versionsOnLine s lid).filter (fun w => w.timestamp ≤ t)) with
  | some m =>
    rw [headAtLine_eq_some_of_max hm] at h
    injection h with h2
    subst h2
    left
    have hspec := maxTsVersion_spec hm
    have hf := List.mem_filter.mp hspec.1
    refine ⟨hf.1, by simpa using hf.2, ?_⟩
    intro w hw hwle
    exact hspec.2 w (List.mem_filter.mpr ⟨hw, by simp [hwle]⟩)
  | none =>
    rw [headAtLine_eq_min_of_max_none hm] at h
    right
    refine ⟨h, ?_⟩
    intro w hw hwle
    have hnil := maxTsVersion_eq_none.mp hm
    have hwin : w ∈ (versionsOnLine s lid).filter (fun x => x.timestamp ≤ t) :=
      List.mem_filter.mpr ⟨hw, by simp [hwle]⟩
    rw [hnil] at hwin
    simp at hwin

theorem getCurrentVersion_spec {s : State} {b : Blk} {cv0 : Version}
    (h : Core.getCurrentVersion s b = some cv0) :
    (∃ lid ∈ claimedLines s b, headAtLine s b.timestamp lid = some cv0) ∧
    ¬(cv0.vtype = VersionType.PRE_INSERTION) ∧
    (∀ v ∈ Core.getHeads s b, ¬(v.vtype = VersionType.PRE_INSERTION) →
      v.timestamp ≤ cv0.timestamp) := by
  unfold Core.getCurrentVersion at h
  have hspec := maxTsVersion_spec h
  have hf := List.mem_filter.mp hspec.1
  have hnp : ¬(cv0.vtype = VersionType.PRE_INSERTION) := by
    intro hcon
    have hb2 := hf.2
    rw [hcon] at hb2
    simp at hb2
  refine ⟨?_, hnp, ?_⟩
  · have hmemh := hf.1
    unfold Core.getHeads at hmemh
    rw [List.mem_filterMap] at hmemh
    obtain ⟨lid, hlid, hh⟩ := hmemh
    exact ⟨lid, hlid, hh⟩
  · intro v hv hvnp
    have hvb : (v.vtype == VersionType.PRE_INSERTION) = false :=
      beq_eq_false_iff_ne.mpr hvnp
    exact hspec.2 v (List.mem_filter.mpr ⟨hv, by simp [hvb]⟩)

theorem fallback_head_is_pre {s : State} {b : Blk} {lid : Nat} {v : Version}
    (hs : WfS s) (hb : WfB s b) (hlid : lid ∈ claimedLines s b)
    (hmin : minTsVersion (versionsOnLine s lid) = some v)
    (hnotle : ¬(v.timestamp ≤ b.timestamp)) :
    v.vtype = VersionType.PRE_INSERTION := by
  have hfile : lid ∈ s.fileLines := (List.mem_filter.mp hlid).1
  have hwl := hs.2.2.1 lid hfile
  have hple : (versionsOnLine s lid).Pairwise (fun a c => a.timestamp ≤ c.timestamp) :=
    (versionsOnLine_pairwise hs lid).imp (fun h => Nat.le_of_lt h)
  have hhead : (versionsOnLine s lid).head? = some v := by
    rw [← minTsVersion_eq_head hple]
    exact hmin
  have hmem1 : v ∈ (versionsOnLine s lid).take 1 := by
    cases hvs : versionsOnLine s lid with
    | nil => rw [hvs] at hhead; cases hhead
    | cons a rest =>
      rw [hvs] at hhead
      simp only [List.head?] at hhead
      injection hhead with hav
      subst hav
      simp
  rcases hwl.2.1 v hmem1 with himp | hpre
  · exfalso
    have hbv : v ∈ blockVersions s b :=
      mem_blockVersions_of_line hlid (minTsVersion_spec hmin).1
    exact hnotle (hb.2.2 v hbv himp)
  · exact hpre

theorem currentVersion_le_timestamp {s : State} {b : Blk} {cv0 : Version}
    (hs : WfS s) (hb : WfB s b) (h : Core.getCurrentVersion s b = some cv0) :
    cv0.timestamp ≤ b.timestamp := by
  obtain ⟨⟨lid, hlid, hhd⟩, hnp, _⟩ := getCurrentVersion_spec h
  rcases headAtLine_spec hhd with ⟨_, hle, _⟩ | ⟨hmin, hnle⟩
  · exact hle
  · exact absurd (fallback_head_is_pre hs hb hlid hmin
      (hnle cv0 (minTsVersion_spec hmin).1)) hnp

/-- The core preservation fact behind the no-op behaviour of
`apply_index(current_index)`: snapping to the current version's timestamp
leaves every claimed line's derived head unchanged. -/
theorem heads_preserved {s : State} {b : Blk} {cv0 : Version}
    (hs : WfS s) (hb : WfB s b) (hcv : Core.getCurrentVersion s b = some cv0) :
    ∀ lid ∈ claimedLines s b,
      headAtLine s cv0.timestamp lid = headAtLine s b.timestamp lid := by
  obtain ⟨_, _, hmaxh⟩ := getCurrentVersion_spec hcv
  have hle := currentVersion_le_timestamp hs hb hcv
  intro lid hlid
  have hfile : lid ∈ s.fileLines := (List.mem_filter.mp hlid).1
  have hwl := hs.2.2.1 lid hfile
  have hpl := versionsOnLine_pairwise hs lid
  have hple : (versionsOnLine s lid).Pairwise (fun a c => a.timestamp ≤ c.timestamp) :=
    hpl.imp (fun h => Nat.le_of_lt h)
  cases hh : headAtLine s b.timestamp lid with
  | none =>
    have hns := @headAtLine_isSome s b.timestamp lid hwl.1
    rw [hh] at hns
    simp at hns
  | some hv =>
    rcases headAtLine_spec hh with ⟨hmem, hle2, hmax⟩ | ⟨hmin, hnone⟩
    · by_cases hcase : hv.timestamp ≤ cv0.timestamp
      · apply headAtLine_eq_max hmem hcase ?_ hpl
        intro w hw hwle
        exact hmax w hw (Nat.le_trans hwle hle)
      · have hpre : hv.vtype = VersionType.PRE_INSERTION := by
          by_contra hnp2
          apply hcase
          apply hmaxh hv ?_ hnp2
          unfold Core.getHeads
          rw [List.mem_filterMap]
          exact ⟨lid, hlid, hh⟩
        have hhead : (versionsOnLine s lid).head? = some hv :=
          hwl.2.2.1 hv hmem (Or.inr hpre)
        have hgt : ∀ w ∈ versionsOnLine s lid, w ≠ hv → hv.timestamp < w.timestamp := by
          intro w hw hne
          cases hvs : versionsOnLine s lid with
          | nil => rw [hvs] at hw; simp at hw
          | cons a rest =>
            rw [hvs] at hhead hw hpl
            simp only [List.head?] at hhead
            injection hhead with hav
            subst hav
            rcases List.mem_cons.mp hw with h1 | h1
            · exact absurd h1 hne
            · exact (List.pairwise_cons.mp hpl).1 w h1
        have hnone2 : ∀ w ∈ versionsOnLine s lid, ¬(w.timestamp ≤ cv0.timestamp) := by
          intro w hw hwle
          by_cases hwv : w = hv
          · subst hwv
            exact hcase hwle
          · exact hcase (Nat.le_of_lt (Nat.lt_of_lt_of_le (hgt w hw hwv) hwle))
        rw [headAtLine_eq_fallback hnone2, minTsVersion_eq_head hple, hhead]
    · have hnone2 : ∀ w ∈ versionsOnLine s lid, ¬(w.timestamp ≤ cv0.timestamp) := by
        intro w hw hwle
        exact hnone w hw (Nat.le_trans hwle hle)
      rw [headAtLine_eq_fallback hnone2, hmin]

theorem filterMap_congr_mem {α β : Type} {f g : α → Option β} {l : List α}
    (h : ∀ a ∈ l, f a = g a) : l.filterMap f = l.filterMap g := by
  induction l with
  | nil => rfl
  | cons a as ih =>
    rw [List.filterMap_cons, List.filterMap_cons, h a (List.mem_cons_self a as),
      ih (fun x hx => h x (List.mem_cons_of_mem a hx))]

theorem claimedLines_applied (s : State) (b : Blk) (t : Nat) :
    claimedLines s { b with lastModifiedLineId := none, timestamp := t } =
      claimedLines s b := rfl

theorem getTimeline_applied (s : State) (b : Blk) (t : Nat) :
    Core.getTimeline s { b with lastModifiedLineId := none, timestamp := t } =
      Core.getTimeline s b := rfl

theorem blk_update_timestamp (b : Blk) (t : Nat) :
    ({ b with lastModifiedLineId := none, timestamp := t } : Blk).timestamp = t := rfl

theorem getHeads_applied {s : State} {b : Blk} {cv0 : Version}
    (hs : WfS s) (hb : WfB s b) (hcv : Core.getCurrentVersion s b = some cv0) :
    Core.getHeads s { b with lastModifiedLineId := none, timestamp := cv0.timestamp } =
      Core.getHeads s b := by
  unfold Core.getHeads
  rw [claimedLines_applied]
  apply filterMap_congr_mem
  intro lid hlid
  rw [blk_update_timestamp]
  exact heads_preserved hs hb hcv lid hlid

theorem gcvi_none {s : State} {b : Blk}
    (hcv : Core.getCurrentVersion s b = none) :
    Core.getCurrentVersionIndex s b = none := by
  unfold Core.getCurrentVersionIndex
  rw [hcv]

theorem gcvi_some {s : State} {b : Blk} {cv0 : Version}
    (hcv : Core.getCurrentVersion s b = some cv0) :
    Core.getCurrentVersionIndex s b =
      if (Core.getTimeline s b).findIdx
          (fun v => v.timestamp == (Core.adjustedCurrent s cv0).timestamp) <
          (Core.getTimeline s b).length then
        some ((Core.getTimeline s b).findIdx
          (fun v => v.timestamp == (Core.adjustedCurrent s cv0).timestamp))
      else none := by
  unfold Core.getCurrentVersionIndex
  rw [hcv]

theorem getCurrentVersionIndex_inv {s : State} {b : Blk} {k : Nat}
    (h : Core.getCurrentVersionIndex s b = some k) :
    ∃ cv0, Core.getCurrentVersion s b = some cv0 ∧
      (Core.getTimeline s b).findIdx
        (fun v => v.timestamp == (Core.adjustedCurrent s cv0).timestamp) = k ∧
      k < (Core.getTimeline s b).length := by
  cases hcv : Core.getCurrentVersion s b with
  | none => rw [gcvi_none hcv] at h; cases h
  | some cv0 =>
    rw [gcvi_some hcv] at h
    by_cases hlt : (Core.getTimeline s b).findIdx
        (fun v => v.timestamp == (Core.adjustedCurrent s cv0).timestamp) <
        (Core.getTimeline s b).length
    · rw [if_pos hlt] at h
      injection h with h2
      exact ⟨cv0, rfl, h2, h2 ▸ hlt⟩
    · rw [if_neg hlt] at h
      cases h

theorem timeline_subset_versions {s : State} {b : Blk} {v : Version}
    (hs : WfS s) (hv : v ∈ Core.getTimeline s b) : v ∈ s.versions := by
  unfold Core.getTimeline at hv
  have h1 := List.mem_of_mem_drop hv
  have hbv : (Core.getVersions s b).Pairwise (fun a c => a.timestamp < c.timestamp) :=
    List.Pairwise.sublist (List.filter_sublist _) hs.1
  have hfsorted : ((Core.getVersions s b).filter
      (fun w => !(isPreB (prevOnLine s w)))).Pairwise
      (fun a c => a.timestamp ≤ c.timestamp) :=
    (List.Pairwise.sublist (List.filter_sublist _) hbv).imp (fun h => Nat.le_of_lt h)
  rw [sortTs_eq_of_sorted hfsorted] at h1
  have h2 := (List.mem_filter.mp h1).1
  exact (List.mem_filter.mp h2).1

theorem adjustedCurrent_mem {s : State} {cv0 : Version}
    (h0 : cv0 ∈ s.versions) : Core.adjustedCurrent s cv0 ∈ s.versions := by
  unfold Core.adjustedCurrent
  cases hp : prevOnLine s cv0 with
  | none => exact h0
  | some p =>
    have hpmem : p ∈ s.versions := by
      have hspec := maxTsVersion_spec (show maxTsVersion
        ((versionsOnLine s cv0.lineId).filter
          (fun w => w.timestamp < cv0.timestamp)) = some p from hp)
      exact (versionsOnLine_mem (List.mem_filter.mp hspec.1).1).1
    show (if (p.vtype == VersionType.PRE_INSERTION) = true then p else cv0) ∈ s.versions
    by_cases hpre : (p.vtype == VersionType.PRE_INSERTION) = true
    · rw [if_pos hpre]
      exact hpmem
    · rw [if_neg hpre]
      exact h0

theorem adjustedCurrent_cases (s : State) (cv0 : Version) :
    Core.adjustedCurrent s cv0 = cv0 ∨
      (Core.adjustedCurrent s cv0).vtype = VersionType.PRE_INSERTION := by
  unfold Core.adjustedCurrent
  cases hp : prevOnLine s cv0 with
  | none => exact Or.inl rfl
  | some p =>
    show (if (p.vtype == VersionType.PRE_INSERTION) = true then p else cv0) = cv0 ∨
      (if (p.vtype == VersionType.PRE_INSERTION) = true then p else cv0).vtype =
        VersionType.PRE_INSERTION
    by_cases hpre : (p.vtype == VersionType.PRE_INSERTION) = true
    · rw [if_pos hpre]
      exact Or.inr (beq_iff_eq.mp hpre)
    · rw [if_neg hpre]
      exact Or.inl rfl

/-- Claim C8 (counterexample): right after a line insertion the current
version index points at the PRE_INSERTION timeline entry, and
`apply_index(current_index)` is not a no-op: the freshly inserted line is
hidden (text drops from "x","new" to "x") and the current index changes from
1 to 0. -/
theorem c8_counterexample :
    Core.getCurrentVersionIndex sIns rootIns = some 1 ∧
    Core.getLineContent sIns rootIns = ["x", "new"] ∧
    (Core.applyIndex sIns rootIns (1 : Int)).failed = false ∧
    Core.getLineContent sIns (Core.applyIndex sIns rootIns (1 : Int)).block = ["x"] ∧
    Core.getCurrentVersionIndex sIns (Core.applyIndex sIns rootIns (1 : Int)).block =
      some 0 := by
  decide

/-- Claim C8 (amended): for a well-formed store and block,
`apply_index(current_index(B))` leaves the visible line contents and the
current version index unchanged whenever the timeline entry at the current
index is not a PRE_INSERTION placeholder (i.e. the latest committed step is
not a fresh line insertion); in the PRE_INSERTION case the call instead hides
the inserted line. -/
theorem c8_applyIndex_current_noop (s : State) (b : Blk) (k : Nat) (e : Version)
    (hs : WfS s) (hb : WfB s b)
    (hidx : Core.getCurrentVersionIndex s b = some k)
    (he : (Core.getTimeline s b)[k]? = some e)
    (hnp : ¬(e.vtype = VersionType.PRE_INSERTION)) :
    (Core.applyIndex s b (k : Int)).failed = false ∧
    Core.getLineContent s (Core.applyIndex s b (k : Int)).block =
      Core.getLineContent s b ∧
    Core.getCurrentVersionIndex s (Core.applyIndex s b (k : Int)).block = some k := by
  obtain ⟨cv0, hcv, hfind, hklen⟩ := getCurrentVersionIndex_inv hidx
  have hfp : (fun v => v.timestamp == (Core.adjustedCurrent s cv0).timestamp) e = true := by
    apply findIdx_elem_prop _ (Core.getTimeline s b) e
    rw [hfind]
    exact he
  have hets : e.timestamp = (Core.adjustedCurrent s cv0).timestamp := by
    exact beq_iff_eq.mp hfp
  have hemem : e ∈ s.versions := timeline_subset_versions hs (mem_of_getElemOpt he)
  have hc0mem : cv0 ∈ s.versions := by
    obtain ⟨⟨lid, hlid, hhd⟩, _, _⟩ := getCurrentVersion_spec hcv
    rcases headAtLine_spec hhd with ⟨hm, _, _⟩ | ⟨hm, _⟩
    · exact (versionsOnLine_mem hm).1
    · exact (versionsOnLine_mem (minTsVersion_spec hm).1).1
  have hadjmem : Core.adjustedCurrent s cv0 ∈ s.versions := adjustedCurrent_mem hc0mem
  have headj : e = Core.adjustedCurrent s cv0 :=
    eq_of_mem_of_ts_eq hs.1 hemem hadjmem hets
  have hecv0 : e = cv0 := by
    rcases adjustedCurrent_cases s cv0 with hcase | hcase
    · rw [headj, hcase]
    · exact absurd (headj ▸ hcase) hnp
  subst hecv0
  have happly : Core.applyIndex s b (k : Int) = applyOutcome b (some e) := by
    rw [applyIndex_reduce s b k k hidx hklen]
    rw [snapChoose_rule4 s b (Core.getTimeline s b) k k e e he he ?_ ?_ ?_]
    · intro hcon
      exact hnp hcon.2.1
    · intro hcon
      exact hnp hcon.2.1
    · intro hcon
      exact hnp hcon.1
  rw [happly]
  refine ⟨rfl, ?_, ?_⟩
  · show Core.getLineContent s
        { b with lastModifiedLineId := none, timestamp := e.timestamp } =
      Core.getLineContent s b
    unfold Core.getLineContent
    rw [claimedLines_applied]
    have hfm : (claimedLines s b).filterMap
        (fun lid => headAtLine s
          ({ b with lastModifiedLineId := none, timestamp := e.timestamp } : Blk).timestamp
          lid) =
        (claimedLines s b).filterMap (fun lid => headAtLine s b.timestamp lid) := by
      apply filterMap_congr_mem
      intro lid hlid
      rw [blk_update_timestamp]
      exact heads_preserved hs hb hcv lid hlid
    rw [hfm]
  · show Core.getCurrentVersionIndex s
        { b with lastModifiedLineId := none, timestamp := e.timestamp } = some k
    have hcv' : Core.getCurrentVersion s
        { b with lastModifiedLineId := none, timestamp := e.timestamp } = some e := by
      unfold Core.getCurrentVersion
      rw [getHeads_applied hs hb hcv]
      exact hcv
    rw [gcvi_some hcv', getTimeline_applied, hfind, if_pos hklen]

/-- Claim C8 (witness): on the one-line-edit store (import "x", change to
"y") the current index 1 points at the CHANGE version, and applying it leaves
the contents and the index unchanged. -/
theorem c8_applyIndex_current_noop_witness :
    (Core.applyIndex sChg rootChg (1 : Int)).failed = false ∧
    Core.getLineContent sChg (Core.applyIndex sChg rootChg (1 : Int)).block =
      Core.getLineContent sChg rootChg ∧
    Core.getCurrentVersionIndex sChg (Core.applyIndex sChg rootChg (1 : Int)).block =
      some 1 :=
  c8_applyIndex_current_noop sChg rootChg 1 chgY (by decide) (by decide) (by decide)
    (by decide) (by decide)

/-! ### Tag round-trips (claim C5) -/

theorem filter_active_filterMap_sublist {f : Nat → Option Version}
    {l l' : List Nat} (hsub : l.Sublist l') (hnd : l'.Nodup)
    (hex : ∀ x ∈ l', x ∉ l → ∀ v, f x = some v → v.isActive = false) :
    ((l'.filterMap f).filter (fun v => v.isActive)) =
      ((l.filterMap f).filter (fun v => v.isActive)) := by
  revert hnd hex
  induction hsub with
  | slnil => intro _ _; rfl
  | cons a hsub ih =>
    intro hnd hex
    cases hfa : f a with
    | none =>
      simp only [List.filterMap_cons, hfa]
      exact ih (List.nodup_cons.mp hnd).2
        (fun x hx hnx => hex x (List.mem_cons_of_mem a hx) hnx)
    | some v =>
      have hna := fun hmem => (List.nodup_cons.mp hnd).1 (hsub.subset hmem)
      have hva : v.isActive = false := hex a (List.mem_cons_self a _) hna v hfa
      simp only [List.filterMap_cons, hfa, List.filter_cons, hva,
        Bool.false_eq_true, if_false]
      exact ih (List.nodup_cons.mp hnd).2
        (fun x hx hnx => hex x (List.mem_cons_of_mem a hx) hnx)
  | cons₂ a hsub ih =>
    intro hnd hex
    cases hfa : f a with
    | none =>
      simp only [List.filterMap_cons, hfa]
      exact ih (List.nodup_cons.mp hnd).2
        (fun x hx hnx => hex x (List.mem_cons_of_mem a hx)
          (fun hm => by
            rcases List.mem_cons.mp hm with h1 | h1
            · exact (List.nodup_cons.mp hnd).1 (h1 ▸ hx)
            · exact hnx h1))
    | some v =>
      cases hv : v.isActive with
      | false =>
        simp only [List.filterMap_cons, hfa, List.filter_cons, hv,
          Bool.false_eq_true, if_false]
        exact ih (List.nodup_cons.mp hnd).2
          (fun x hx hnx => hex x (List.mem_cons_of_mem a hx)
            (fun hm => by
              rcases List.mem_cons.mp hm with h1 | h1
              · exact (List.nodup_cons.mp hnd).1 (h1 ▸ hx)
              · exact hnx h1))
      | true =>
        simp only [List.filterMap_cons, hfa, List.filter_cons, hv, if_true]
        rw [ih (List.nodup_cons.mp hnd).2
          (fun x hx hnx => hex x (List.mem_cons_of_mem a hx)
            (fun hm => by
              rcases List.mem_cons.mp hm with h1 | h1
              · exact (List.nodup_cons.mp hnd).1 (h1 ▸ hx)
              · exact hnx h1))]

theorem c5_head_ext {s s' : State} {lid tagTs : Nat} {newV : List Version}
    (hs : WfS s)
    (htag : tagTs = s.lastTick)
    (hvext : s'.versions = s.versions ++ newV)
    (hnew : ∀ v ∈ newV, tagTs < v.timestamp)
    (hlid : lid ∈ s.fileLines) :
    headAtLine s' tagTs lid = headAtLine s tagTs lid := by
  have hvol' : versionsOnLine s' lid =
      versionsOnLine s lid ++ newV.filter (fun v => v.lineId == lid) := by
    unfold versionsOnLine
    rw [hvext, List.filter_append]
  have hfold : (versionsOnLine s lid).filter (fun v => v.timestamp ≤ tagTs) =
      versionsOnLine s lid := by
    apply List.filter_eq_self.mpr
    intro v hv
    have hle := hs.2.2.2.2.2 v (versionsOnLine_mem hv).1
    simp [htag, hle]
  have hfnew : (newV.filter (fun v => v.lineId == lid)).filter
      (fun v => v.timestamp ≤ tagTs) = [] := by
    rw [List.filter_eq_nil_iff]
    intro v hv
    have hgt := hnew v (List.mem_filter.mp hv).1
    simp
    omega
  have hne : versionsOnLine s lid ≠ [] := (hs.2.2.1 lid hlid).1
  cases hm : maxTsVersion (versionsOnLine s lid) with
  | none => exact absurd (maxTsVersion_eq_none.mp hm) hne
  | some m =>
    have h1 : headAtLine s' tagTs lid = some m := by
      apply headAtLine_eq_some_of_max
      rw [hvol', List.filter_append, hfold, hfnew, List.append_nil]
      exact hm
    have h2 : headAtLine s tagTs lid = some m := by
      apply headAtLine_eq_some_of_max
      rw [hfold]
      exact hm
    rw [h1, h2]

theorem c5_new_line_head_inactive {s' : State} {lid tagTs : Nat} {v : Version}
    (hs' : WfS s')
    (hlid : lid ∈ s'.fileLines)
    (hlate : ∀ w ∈ versionsOnLine s' lid, tagTs < w.timestamp)
    (hfirst : ∀ w ∈ (versionsOnLine s' lid).take 1,
        w.vtype = VersionType.PRE_INSERTION)
    (hv : headAtLine s' tagTs lid = some v) :
    v.isActive = false := by
  have hwl := hs'.2.2.1 lid hlid
  have hnone : ∀ w ∈ versionsOnLine s' lid, ¬(w.timestamp ≤ tagTs) := by
    intro w hw hle
    exact absurd hle (Nat.not_le.mpr (hlate w hw))
  rw [headAtLine_eq_fallback hnone] at hv
  have hple : (versionsOnLine s' lid).Pairwise
      (fun a c => a.timestamp ≤ c.timestamp) :=
    (versionsOnLine_pairwise hs' lid).imp (fun h => Nat.le_of_lt h)
  rw [minTsVersion_eq_head hple] at hv
  have hmem1 : v ∈ (versionsOnLine s' lid).take 1 := by
    cases hvs : versionsOnLine s' lid with
    | nil => rw [hvs] at hv; cases hv
    | cons a rest =>
      rw [hvs] at hv
      simp only [List.head?] at hv
      injection hv with hav
      subst hav
      simp
  have hmemv : v ∈ versionsOnLine s' lid :=
    (List.take_sublist 1 (versionsOnLine s' lid)).subset hmem1
  exact hwl.2.2.2 v hmemv (hfirst v hmem1)

theorem claimedLines_setTs (s : State) (b : Blk) (t : Nat) :
    claimedLines s { b with timestamp := t } = claimedLines s b := rfl

theorem blk_setTs_timestamp (b : Blk) (t : Nat) :
    ({ b with timestamp := t } : Blk).timestamp = t := rfl

/-- Claim C5 (counterexample): one line imported as "x" (timestamp 1) and
changed to "y" (timestamp 2); the block was scrubbed back to timestamp 1, so
its visible text is "x"; a tag captured at timestamp 2 is peeked at.
`getTextForVersion` returns "y" but then "restores" to a recovery tag taken
at the provider's LAST timestamp (2) rather than the block's current one (1):
the block ends at timestamp 2 with text "y" — the observable state changed. -/
theorem c5_counterexample :
    Core.getLineContent sChg rootInsAt1 = ["x"] ∧
    (Core.getTextForVersion sChg rootInsAt1 2).1 = ["y"] ∧
    (Core.getTextForVersion sChg rootInsAt1 2).2 ≠ rootInsAt1 ∧
    (Core.getTextForVersion sChg rootInsAt1 2).2 =
      { rootInsAt1 with timestamp := 2 } ∧
    Core.getLineContent sChg (Core.getTextForVersion sChg rootInsAt1 2).2 = ["y"] := by
  decide

/-- Claim C5 (amended): consider a tag captured at `tagTs`, the provider's
last tick of the creation-time store `s`, on block `b`; let `s', b'` be the
store and block after any sequence of later operations, i.e. the version log
has grown by versions stamped after `tagTs`, the block's claimed lines have
grown by lines whose whole history is stamped after `tagTs` and which start
with a PRE_INSERTION placeholder.  Then `getTextForVersion` (a) returns
exactly the text the tag captured at its creation, and (b) leaves the block at
the provider's LAST timestamp — so the block's observable state is unchanged
if and only if the block was already at the last timestamp; a block scrubbed
back in history is snapped forward by the peek. -/
theorem c5_tag_roundtrip_amended (s s' : State) (b b' : Blk) (tagTs : Nat)
    (newV : List Version)
    (hs : WfS s) (hs' : WfS s')
    (htag : tagTs = s.lastTick)
    (hvext : s'.versions = s.versions ++ newV)
    (hnew : ∀ v ∈ newV, tagTs < v.timestamp)
    (hcl : (claimedLines s b).Sublist (claimedLines s' b'))
    (hlate : ∀ lid ∈ claimedLines s' b', lid ∉ claimedLines s b →
        ∀ v ∈ versionsOnLine s' lid, tagTs < v.timestamp)
    (hfirst : ∀ lid ∈ claimedLines s' b', lid ∉ claimedLines s b →
        ∀ v ∈ (versionsOnLine s' lid).take 1,
          v.vtype = VersionType.PRE_INSERTION) :
    (Core.getTextForVersion s' b' tagTs).1 =
      Core.getLineContent s { b with timestamp := tagTs } ∧
    (Core.getTextForVersion s' b' tagTs).2 = { b' with timestamp := s'.lastTick } ∧
    ((Core.getTextForVersion s' b' tagTs).2 = b' ↔ b'.timestamp = s'.lastTick) := by
  refine ⟨?_, rfl, ?_, ?_⟩
  · show (((claimedLines s' b').filterMap
        (fun lid => headAtLine s' tagTs lid)).filter
        (fun v => v.isActive)).map (fun v => v.content) =
      (((claimedLines s b).filterMap
        (fun lid => headAtLine s tagTs lid)).filter
        (fun v => v.isActive)).map (fun v => v.content)
    have hnd' : (claimedLines s' b').Nodup := List.Nodup.filter _ hs'.2.1
    have hstep1 : ((claimedLines s' b').filterMap
        (fun lid => headAtLine s' tagTs lid)).filter (fun v => v.isActive) =
        ((claimedLines s b).filterMap
          (fun lid => headAtLine s' tagTs lid)).filter (fun v => v.isActive) := by
      apply filter_active_filterMap_sublist hcl hnd'
      intro x hx hnx v hv
      exact c5_new_line_head_inactive hs' (List.mem_filter.mp hx).1
        (hlate x hx hnx) (hfirst x hx hnx) hv
    have hstep2 : ((claimedLines s b).filterMap
        (fun lid => headAtLine s' tagTs lid)) =
        ((claimedLines s b).filterMap (fun lid => headAtLine s tagTs lid)) := by
      apply filterMap_congr_mem
      intro lid hlid
      exact c5_head_ext hs htag hvext hnew (List.mem_filter.mp hlid).1
    rw [hstep1, hstep2]
  · intro h
    have h2 := congrArg Blk.timestamp h
    exact h2.symm
  · intro h
    show ({ b' with timestamp := s'.lastTick } : Blk) = b'
    rw [← h]

/-- Claim C5 (witness): tag at timestamp 1 on the freshly imported one-line
store; after the edit to "y" the peek returns the captured text "x" and ends
with the block at the last timestamp (here the edited block was already
there, so its state is indeed unchanged). -/
theorem c5_tag_roundtrip_amended_witness :
    (Core.getTextForVersion sChg rootChg 1).1 =
      Core.getLineContent sTagCreate { rootInsAt1 with timestamp := 1 } ∧
    (Core.getTextForVersion sChg rootChg 1).2 = { rootChg with timestamp := 2 } ∧
    ((Core.getTextForVersion sChg rootChg 1).2 = rootChg ↔
      rootChg.timestamp = 2) :=
  c5_tag_roundtrip_amended sTagCreate sChg rootInsAt1 rootChg 1 [chgY]
    (by decide) (by decide) (by decide) (by decide) (by decide) (by decide)
    (by decide) (by decide)

/-! ### Child creation and overlap rejection (claim C6) -/

/-- Claim C6: with the range resolved to `lineIds` (a fresh block id and the
store invariant that every block parented to `b` is INLINE), `create_child`
returns the overlap rejection exactly when an existing sibling INLINE child
claims one of the resolved lines — rejection writes nothing by construction —
and otherwise extends the store with a new INLINE block that has the parent's
timestamp, is parented to `b`, and claims exactly the resolved lines, leaving
lines and versions untouched. -/
theorem c6_createChild_spec (s : State) (b : Blk)
    (newId startLine endLine : Nat) (lineIds : List Nat)
    (hres : Proxy.getLinesInRange s b startLine endLine = some lineIds)
    (hfresh : ∀ pr ∈ s.blockLines, pr.1 ≠ newId)
    (hinline : ∀ c ∈ s.blocks, c.parentId = some b.id →
      c.btype = BlockType.INLINE) :
    (Proxy.createChild s b newId startLine endLine = ChildResult.overlap ↔
      ∃ c ∈ s.blocks, c.btype = BlockType.INLINE ∧ c.parentId = some b.id ∧
        ∃ lid ∈ lineIds, claims s c.id lid = true) ∧
    ((∀ c ∈ s.blocks, c.parentId = some b.id →
        ∀ lid ∈ lineIds, claims s c.id lid = false) →
      Proxy.createChild s b newId startLine endLine =
        ChildResult.created (Proxy.inlineCopy s b newId lineIds) ∧
      (∀ lid, claims (Proxy.inlineCopy s b newId lineIds) newId lid = true ↔
        lid ∈ lineIds) ∧
      Proxy.childBlk b newId ∈ (Proxy.inlineCopy s b newId lineIds).blocks ∧
      (Proxy.childBlk b newId).btype = BlockType.INLINE ∧
      (Proxy.childBlk b newId).parentId = some b.id ∧
      (Proxy.childBlk b newId).timestamp = b.timestamp ∧
      (Proxy.inlineCopy s b newId lineIds).versions = s.versions ∧
      (Proxy.inlineCopy s b newId lineIds).fileLines = s.fileLines) := by
  have hcc : Proxy.createChild s b newId startLine endLine =
      (if s.blocks.any (fun c => c.parentId == some b.id &&
          lineIds.any (fun lid => claims s c.id lid)) then ChildResult.overlap
       else ChildResult.created (Proxy.inlineCopy s b newId lineIds)) := by
    unfold Proxy.createChild
    rw [hres]
  have hcond : (s.blocks.any (fun c => c.parentId == some b.id &&
      lineIds.any (fun lid => claims s c.id lid)) = true) ↔
      ∃ c ∈ s.blocks, c.parentId = some b.id ∧
        ∃ lid ∈ lineIds, claims s c.id lid = true := by
    rw [List.any_eq_true]
    constructor
    · rintro ⟨c, hc, hcb⟩
      rw [Bool.and_eq_true] at hcb
      obtain ⟨h1, h2⟩ := hcb
      rw [List.any_eq_true] at h2
      obtain ⟨lid, hlid, hcl⟩ := h2
      exact ⟨c, hc, beq_iff_eq.mp h1, lid, hlid, hcl⟩
    · rintro ⟨c, hc, h1, lid, hlid, hcl⟩
      refine ⟨c, hc, ?_⟩
      rw [Bool.and_eq_true]
      exact ⟨beq_iff_eq.mpr h1, List.any_eq_true.mpr ⟨lid, hlid, hcl⟩⟩
  constructor
  · constructor
    · intro hov
      by_cases hb : s.blocks.any (fun c => c.parentId == some b.id &&
          lineIds.any (fun lid => claims s c.id lid)) = true
      · obtain ⟨c, hc, h1, lid, hlid, hcl⟩ := hcond.mp hb
        exact ⟨c, hc, hinline c hc h1, h1, lid, hlid, hcl⟩
      · rw [hcc, if_neg hb] at hov
        exact ChildResult.noConfusion hov
    · rintro ⟨c, hc, hbt, h1, lid, hlid, hcl⟩
      rw [hcc, if_pos (hcond.mpr ⟨c, hc, h1, lid, hlid, hcl⟩)]
  · intro hno
    have hb : s.blocks.any (fun c => c.parentId == some b.id &&
        lineIds.any (fun lid => claims s c.id lid)) = false := by
      rw [Bool.eq_false_iff]
      intro hb
      obtain ⟨c, hc, h1, lid, hlid, hcl⟩ := hcond.mp hb
      rw [hno c hc h1 lid hlid] at hcl
      cases hcl
    refine ⟨by rw [hcc, if_neg (by rw [hb]; exact Bool.false_ne_true)],
      ?_, ?_, rfl, rfl, rfl, rfl, rfl⟩
    · intro lid
      show decide ((newId, lid) ∈
          s.blockLines ++ lineIds.map (fun l => (newId, l))) = true ↔
        lid ∈ lineIds
      rw [decide_eq_true_eq]
      constructor
      · intro hm
        rcases List.mem_append.mp hm with h1 | h1
        · exact absurd rfl (hfresh _ h1)
        · obtain ⟨l, hl, he⟩ := List.mem_map.mp h1
          injection he with he1 he2
          exact he2 ▸ hl
      · intro hl
        exact List.mem_append.mpr (Or.inr (List.mem_map.mpr ⟨lid, hl, rfl⟩))
    · show Proxy.childBlk b newId ∈ s.blocks ++ [Proxy.childBlk b newId]
      exact List.mem_append.mpr (Or.inr (List.mem_cons_self _ _))

/-- Claim C6 (witness): spec scenario 5 — with the child claiming lines 2-3,
`create_child({1,2})` on the three-line root is rejected as an overlap. -/
theorem c6_createChild_spec_witness :
    Proxy.createChild sKid rootP 3 1 2 = ChildResult.overlap :=
  (c6_createChild_spec sKid rootP 3 1 2 [1, 2] (by decide) (by decide)
    (by decide)).1.mpr
    ⟨childQ, by decide, by decide, by decide, 2, by decide, by decide⟩

/-! ### Line insertion and clamping (claim C10) -/

theorem insertOneLine_newLine (s : State) (b : Blk) (newLid pos : Nat)
    (content : String) (refLid : Nat) :
    newLid ∈ (Proxy.insertOneLine s b newLid pos content refLid).fileLines ∧
    (Proxy.insertOneLine s b newLid pos content refLid).fileLines.length =
      s.fileLines.length + 1 := by
  constructor
  · show newLid ∈ s.fileLines.take pos ++ [newLid] ++ s.fileLines.drop pos
    simp
  · show (s.fileLines.take pos ++ [newLid] ++ s.fileLines.drop pos).length =
      s.fileLines.length + 1
    simp only [List.length_append, List.length_take, List.length_drop,
      List.length_singleton]
    omega

/-- Claim C10 (counterexample): the single claimed line has been deleted, so
the block has no active line.  The persisted path still succeeds (the clamp
sends every line number to 1, the prepend branch, which only needs a claimed
line), but the in-memory `Block.insertLine` dereferences
`getLastActiveLine()` — `null` here — before anything else, so on this input
it fails instead of creating a line. -/
theorem c10_counterexample :
    claimedLines sDel rootDel ≠ [] ∧
    Proxy.getActiveLineCount sDel rootDel = 0 ∧
    Core.getLastActiveLine sDel rootDel = none ∧
    (Proxy.insertLinesAt sDel rootDel 2 5 "n").isSome = true := by
  decide

/-- Claim C10 (amended): on the persisted path, for every integer `n` —
including `n < 1` and `n > active_count + 1` — and every block that claims at
least one line, `insert_line_at(n, content)` never fails: the line number is
clamped into `[1, active_count + 1]` (out-of-range requests become a prepend
or an append), and a fresh Line is always created.  (The in-memory path uses
the identical clamp but crashes when the block has no active line; see the
counterexample.) -/
theorem c10_insertLineAt_clamped (s : State) (b : Blk) (newLid : Nat) (n : Int)
    (content : String)
    (hcl : claimedLines s b ≠ []) :
    1 ≤ Proxy.clampLineNumber n (Proxy.getActiveLineCount s b) ∧
    Proxy.clampLineNumber n (Proxy.getActiveLineCount s b) ≤
      Proxy.getActiveLineCount s b + 1 ∧
    (n < 1 → Proxy.clampLineNumber n (Proxy.getActiveLineCount s b) = 1) ∧
    ((Proxy.getActiveLineCount s b : Int) + 1 ≤ n →
      Proxy.clampLineNumber n (Proxy.getActiveLineCount s b) =
        Proxy.getActiveLineCount s b + 1) ∧
    (Proxy.insertLinesAt s b newLid n content).isSome = true ∧
    (∀ s', Proxy.insertLinesAt s b newLid n content = some s' →
      newLid ∈ s'.fileLines ∧
      s'.fileLines.length = s.fileLines.length + 1) := by
  have hmain : ∃ s₀, Proxy.insertLinesAt s b newLid n content = some s₀ ∧
      newLid ∈ s₀.fileLines ∧ s₀.fileLines.length = s.fileLines.length + 1 := by
    by_cases h1 : Proxy.clampLineNumber n (Proxy.getActiveLineCount s b) = 1
    · have hhead : ∃ x, (claimedLines s b).head? = some x := by
        cases hcc : claimedLines s b with
        | nil => exact absurd hcc hcl
        | cons a l => exact ⟨a, rfl⟩
      obtain ⟨firstL, hfirst⟩ := hhead
      refine ⟨Proxy.insertOneLine s b newLid (ordOf s firstL) content firstL,
        ?_, insertOneLine_newLine s b newLid _ content _⟩
      unfold Proxy.insertLinesAt
      rw [if_pos (beq_iff_eq.mpr h1), hfirst]
    · by_cases h2 : Proxy.clampLineNumber n (Proxy.getActiveLineCount s b) =
          Proxy.getActiveLineCount s b + 1
      · have hlast : ∃ x, (claimedLines s b).getLast? = some x := by
          cases hcc : claimedLines s b with
          | nil => exact absurd hcc hcl
          | cons a l =>
            exact ⟨(a :: l).getLast (by simp),
              List.getLast?_eq_getLast (a :: l) (by simp)⟩
        obtain ⟨lastL, hlastL⟩ := hlast
        refine ⟨Proxy.insertOneLine s b newLid (ordOf s lastL + 1) content lastL,
          ?_, insertOneLine_newLine s b newLid _ content _⟩
        unfold Proxy.insertLinesAt
        rw [if_neg (by rw [beq_iff_eq]; exact h1),
          if_pos (beq_iff_eq.mpr h2), hlastL]
      · have hb1 : 1 ≤ Proxy.clampLineNumber n (Proxy.getActiveLineCount s b) := by
          unfold Proxy.clampLineNumber
          omega
        have hb2 : Proxy.clampLineNumber n (Proxy.getActiveLineCount s b) ≤
            Proxy.getActiveLineCount s b + 1 := by
          unfold Proxy.clampLineNumber
          omega
        have hlen : (Proxy.getActiveLines s b).length =
            Proxy.getActiveLineCount s b := rfl
        have hi1 : Proxy.clampLineNumber n (Proxy.getActiveLineCount s b) - 2 <
            (Proxy.getActiveLines s b).length := by
          rw [hlen]
          omega
        have hi2 : Proxy.clampLineNumber n (Proxy.getActiveLineCount s b) - 1 <
            (Proxy.getActiveLines s b).length := by
          rw [hlen]
          omega
        cases hprev : (Proxy.getActiveLines s b)[Proxy.clampLineNumber n
            (Proxy.getActiveLineCount s b) - 2]? with
        | none =>
          rw [List.getElem?_eq_getElem hi1] at hprev
          exact Option.noConfusion hprev
        | some prevL =>
          cases hcur : (Proxy.getActiveLines s b)[Proxy.clampLineNumber n
              (Proxy.getActiveLineCount s b) - 1]? with
          | none =>
            rw [List.getElem?_eq_getElem hi2] at hcur
            exact Option.noConfusion hcur
          | some curL =>
            refine ⟨Proxy.insertOneLine s b newLid (ordOf s curL) content prevL,
              ?_, insertOneLine_newLine s b newLid _ content _⟩
            unfold Proxy.insertLinesAt
            rw [if_neg (by rw [beq_iff_eq]; exact h1),
              if_neg (by rw [beq_iff_eq]; exact h2), hprev, hcur]
  obtain ⟨s₀, hs₀, hmem, hlen⟩ := hmain
  refine ⟨?_, ?_, ?_, ?_, ?_, ?_⟩
  · unfold Proxy.clampLineNumber
    omega
  · unfold Proxy.clampLineNumber
    omega
  · intro hn
    unfold Proxy.clampLineNumber
    omega
  · intro hn
    unfold Proxy.clampLineNumber
    omega
  · rw [hs₀]
    rfl
  · intro s' hs'
    rw [hs₀] at hs'
    injection hs' with he
    subst he
    exact ⟨hmem, hlen⟩

/-- Claim C10 (witness): inserting at the out-of-range line number 5 into
the one-line store succeeds (the clamp turns it into an append). -/
theorem c10_insertLineAt_clamped_witness :
    (Proxy.insertLinesAt sChg rootChg 2 5 "n").isSome = true :=
  (c10_insertLineAt_clamped sChg rootChg 2 5 "n" (by decide)).2.2.2.2.1

/-! ### The affected-blocks report of the edit engine (claim C9) -/

theorem changeLines_eq_none {s : State} {b : Blk} {newLids : List Nat}
    {ch : MultiLineChange} (hsh : Proxy.chStartHead s b ch = none) :
    Proxy.changeLines s b newLids ch = none := by
  unfold Proxy.changeLines
  rw [hsh]

theorem changeLines_eq_some {s : State} {b : Blk} {newLids : List Nat}
    {ch : MultiLineChange} {sh : Version}
    (hsh : Proxy.chStartHead s b ch = some sh) :
    Proxy.changeLines s b newLids ch =
      (match Proxy.insertTail (Proxy.chWriteVersions s b (Proxy.chPlan s b ch sh)) b
          (Proxy.chInsertPos (Proxy.chPlan s b ch sh)) newLids
          (Proxy.chToInsert (Proxy.chPlan s b ch sh)) with
       | none => none
       | some s₂ =>
         some (s₂, Proxy.affectedBlockIds s₂
           (Proxy.chDeleted (Proxy.chPlan s b ch sh) ++
             Proxy.chUpdated (Proxy.chPlan s b ch sh)))) := by
  unfold Proxy.changeLines
  rw [hsh]

theorem mem_affectedBlockIds {s : State} {lids : List Nat} {bid : Nat} :
    bid ∈ Proxy.affectedBlockIds s lids ↔
      ∃ c ∈ s.blocks, c.id = bid ∧ ∃ lid ∈ lids, claims s c.id lid = true := by
  unfold Proxy.affectedBlockIds
  rw [List.mem_map]
  constructor
  · rintro ⟨c, hcf, hid⟩
    have hm := List.mem_filter.mp hcf
    obtain ⟨lid, hlid, hcl⟩ := List.any_eq_true.mp hm.2
    exact ⟨c, hm.1, hid, lid, hlid, hcl⟩
  · rintro ⟨c, hc, hid, lid, hlid, hcl⟩
    exact ⟨c, List.mem_filter.mpr ⟨hc, List.any_eq_true.mpr ⟨lid, hlid, hcl⟩⟩, hid⟩

/-- Claim C9 (counterexample): a pure insertion at the end of the one-line
file "x" (inserted text "\nnew").  The persisted `changeLines` classifies it
as push-start-line-up with no modified lines, inserts the new line — which
the block then claims — and reports NO affected blocks, although the claim
requires the id of every block claiming the newly inserted line. -/
theorem c9_counterexample :
    (Proxy.changeLines sTagCreate rootInsAt1 [2] chIns).map Prod.snd =
      some [] ∧
    (Proxy.changeLines sTagCreate rootInsAt1 [2] chIns).map
      (fun pr => claims pr.1 rootInsAt1.id 2) = some true ∧
    (Proxy.changeLines sTagCreate rootInsAt1 [2] chIns).map
      (fun pr => decide (2 ∈ pr.1.fileLines)) = some true ∧
    2 ∉ sTagCreate.fileLines := by
  decide

/-- Claim C9 (amended): whenever the persisted `change_lines` succeeds, the
returned block ids are exactly the ids of the blocks claiming a line that
the change DELETED or UPDATED — both taken from the active lines of the
adjusted modified range — and newly inserted lines are not considered, so a
pure insertion reports nothing (see the counterexample; the in-memory
`Block.changeLines` adds inserted lines to its affected set, block.ts:
664-667). -/
theorem c9_changeLines_affected_amended (s : State) (b : Blk)
    (newLids : List Nat) (ch : MultiLineChange) (s₂ : State)
    (result : List Nat) (bid : Nat)
    (hch : Proxy.changeLines s b newLids ch = some (s₂, result)) :
    ∃ sh, Proxy.chStartHead s b ch = some sh ∧
      result = Proxy.affectedBlockIds s₂
        (Proxy.chDeleted (Proxy.chPlan s b ch sh) ++
          Proxy.chUpdated (Proxy.chPlan s b ch sh)) ∧
      (bid ∈ result ↔ ∃ c ∈ s₂.blocks, c.id = bid ∧
        ∃ lid ∈ Proxy.chDeleted (Proxy.chPlan s b ch sh) ++
          Proxy.chUpdated (Proxy.chPlan s b ch sh),
          claims s₂ c.id lid = true) ∧
      (∀ lid ∈ Proxy.chDeleted (Proxy.chPlan s b ch sh) ++
          Proxy.chUpdated (Proxy.chPlan s b ch sh),
        lid ∈ (Proxy.chPlan s b ch sh).vcsLines) := by
  cases hsh : Proxy.chStartHead s b ch with
  | none =>
    rw [changeLines_eq_none hsh] at hch
    exact Option.noConfusion hch
  | some sh =>
    rw [changeLines_eq_some hsh] at hch
    revert hch
    cases hins : Proxy.insertTail (Proxy.chWriteVersions s b (Proxy.chPlan s b ch sh)) b
        (Proxy.chInsertPos (Proxy.chPlan s b ch sh)) newLids
        (Proxy.chToInsert (Proxy.chPlan s b ch sh)) with
    | none =>
      intro hch
      exact Option.noConfusion hch
    | some s₃ =>
      intro hch
      injection hch with hpr
      have h1 : s₃ = s₂ := congrArg Prod.fst hpr
      subst h1
      have h2 : Proxy.affectedBlockIds s₃
          (Proxy.chDeleted (Proxy.chPlan s b ch sh) ++
            Proxy.chUpdated (Proxy.chPlan s b ch sh)) = result :=
        congrArg Prod.snd hpr
      refine ⟨sh, rfl, h2.symm, ?_, ?_⟩
      · rw [← h2]
        exact mem_affectedBlockIds
      · intro lid hlid
        rcases List.mem_append.mp hlid with hd | hu
        · exact (List.drop_sublist _ _).subset (List.mem_reverse.mp hd)
        · exact (List.take_sublist _ _).subset hu

/-- Claim C9 (witness): the one-line update "x"→"z" reports exactly the
blocks claiming the updated line. -/
theorem c9_changeLines_affected_amended_witness :
    ∃ sh, Proxy.chStartHead sTagCreate rootInsAt1 chUpd = some sh ∧
      (1 ∈ ([1] : List Nat) ↔ ∃ c ∈ sUpd2.blocks, c.id = 1 ∧
        ∃ lid ∈ Proxy.chDeleted (Proxy.chPlan sTagCreate rootInsAt1 chUpd sh) ++
          Proxy.chUpdated (Proxy.chPlan sTagCreate rootInsAt1 chUpd sh),
          claims sUpd2 c.id lid = true) := by
  obtain ⟨sh, hsh, hres, hiff, hsub⟩ :=
    c9_changeLines_affected_amended sTagCreate rootInsAt1 [] chUpd sUpd2 [1] 1
      (by decide)
  exact ⟨sh, hsh, hiff⟩

end GhostVCS
